import Mathlib

/-!
# Verification of the uvfile reconciliation engine

A shallow embedding of `src/uvfile/__main__.py` (the `uvfile` tool): the
requirement data model (`RequirementSpec`, `Tool`), the equivalence checks
(`RequirementSpec.__eq__`, `Tool.__eq__`), the command synthesizer
(`to_install_args`, `install_command`), the manifest codec
(`collect_tool_metadata`, `write_uvfile`), the installed-state reader
(`parse_uv_receipt`, `get_installed_tools`) and the sync orchestrator
(`install_from_uvfile`).

Python `str` values that the code manipulates character-by-character are
modelled as `List Char`; `str` fields of the dataclasses are Lean `String`
(which is definitionally a wrapped `List Char`).  Python `Optional[str]` is
`Option String`.  Python truthiness of an optional string (`if self.url:`)
is `strTruthy`: `None` and `""` are falsy.
-/

/-- Truthiness of a Python `Optional[str]`: `None` and `""` are falsy. -/
def strTruthy : Option String → Bool
  | none => false
  | some s => !s.data.isEmpty

/-- Python `sep.join(xs)` for a one-character separator. -/
def mkJoin (sep : Char) (xs : List String) : String :=
  String.mk (List.intercalate [sep] (xs.map String.data))

/-- Python f-string rendering of an `Optional[str]`: `None` prints as "None". -/
def fmtPyOpt : Option String → String
  | none => "None"
  | some s => s

/-- Python `a or b` on optional strings (used by `parse_requirement`):
returns `a` when `a` is truthy, else `b`. -/
def pyOr (a b : Option String) : Option String :=
  if strTruthy a then a else b

/-- Python string comparison (`<`), used by `sorted`: lexicographic by
code point. -/
def clLt : List Char → List Char → Bool
  | [], [] => false
  | [], _ :: _ => true
  | _ :: _, [] => false
  | a :: as, b :: bs =>
    if a.toNat < b.toNat then true
    else if a = b then clLt as bs
    else false

/-- The (non-strict) order `sorted` sorts by: `a ≤ b ↔ ¬ b < a`. -/
def strLe (a b : String) : Prop := clLt b.data a.data = false

instance : DecidableRel strLe := fun _ _ => inferInstanceAs (Decidable (_ = false))

/-- Model of Python `sorted` on a list of strings (a stable sort; on the
antisymmetric code-point order any correct sort gives the same list). -/
def pySorted (l : List String) : List String := l.insertionSort strLe

/-- `RequirementSpec` dataclass: one requirement with the unified
`url`/`editable` source representation. -/
structure RequirementSpec where
  name : Option String := none
  version : Option String := none
  extras : List String := []
  url : Option String := none
  editable : Bool := false
deriving DecidableEq, Repr

/-- The requirement fragment `f"{self.name}@{self.url}"` resp.
`name[extras]version` that `to_install_args` builds. -/
def RequirementSpec.fragment (r : RequirementSpec) : String :=
  if strTruthy r.url then
    fmtPyOpt r.name ++ "@" ++ fmtPyOpt r.url
  else
    (if strTruthy r.name then r.name.getD "" else "") ++
    (if r.extras.isEmpty then ""
     else "[" ++ mkJoin ',' r.extras ++ "]") ++
    (if strTruthy r.version then (r.version.getD "") else "")

/-- `RequirementSpec.to_install_args`: the install command fragment, in
primary mode (`as_with = false`) or dependency mode (`as_with = true`). -/
def RequirementSpec.to_install_args (r : RequirementSpec) (as_with : Bool) :
    List String :=
  if strTruthy r.url then
    if r.editable then
      if as_with then ["--with-editable", r.fragment]
      else [r.fragment, "--editable"]
    else
      if as_with then ["--with", r.fragment] else [r.fragment]
  else
    if as_with then ["--with", r.fragment] else [r.fragment]

/-- `RequirementSpec.__eq__`: all five aspects compared, extras as sorted
lists. -/
def reqEq (a b : RequirementSpec) : Bool :=
  a.name == b.name && a.version == b.version &&
  pySorted a.extras == pySorted b.extras &&
  a.url == b.url && a.editable == b.editable

/-- `Tool` dataclass: primary requirement, `--with` overrides, python pin. -/
structure Tool where
  primary : RequirementSpec
  additional : List RequirementSpec := []
  python_version : Option String := none
deriving DecidableEq, Repr

/-- The sort key `lambda r: (r.name or "", r.version or "")` used by
`Tool.__eq__` on the override lists. -/
def sortKey (r : RequirementSpec) : String × String :=
  ((if strTruthy r.name then r.name.getD "" else ""),
   (if strTruthy r.version then r.version.getD "" else ""))

/-- Python tuple comparison of two sort keys (lexicographic). -/
def keyLt (a b : String × String) : Bool :=
  if clLt a.1.data b.1.data then true
  else if a.1 = b.1 then clLt a.2.data b.2.data
  else false

/-- The key order used by `sorted(..., key=...)` in `Tool.__eq__`. -/
def addLe (a b : RequirementSpec) : Prop := keyLt (sortKey b) (sortKey a) = false

instance : DecidableRel addLe := fun _ _ => inferInstanceAs (Decidable (_ = false))

/-- Model of `sorted(additional, key=lambda r: (r.name or "", r.version or ""))`
(Python's sort is stable; insertion sort is the same stable sort). -/
def sortAdd (l : List RequirementSpec) : List RequirementSpec :=
  l.insertionSort addLe

/-- Elementwise comparison of two Python lists of `RequirementSpec` (Python
`==` on lists applies the element `__eq__`, here `reqEq`). -/
def reqListEq : List RequirementSpec → List RequirementSpec → Bool
  | [], [] => true
  | a :: as, b :: bs => reqEq a b && reqListEq as bs
  | _, _ => false

/-- `Tool.__eq__`: primary specs match, key-sorted override lists match
elementwise, python pins are equal. -/
def toolEq (a b : Tool) : Bool :=
  reqEq a.primary b.primary &&
  reqListEq (sortAdd a.additional) (sortAdd b.additional) &&
  a.python_version == b.python_version

/-- `Tool.install_command`: primary fragment, each override in dependency
mode, `--python` pin, optional `--reinstall`. -/
def Tool.install_command (t : Tool) (reinstall : Bool) : List String :=
  t.primary.to_install_args false ++
  (t.additional.map (fun r => r.to_install_args true)).flatten ++
  (if strTruthy t.python_version then
    ["--python", t.python_version.getD ""] else []) ++
  (if reinstall then ["--reinstall"] else [])

/-! ## Installed-state reader (`parse_uv_receipt`, `get_installed_tools`) -/

/-- One entry of the `tool.requirements` list of a `uv-receipt.toml`
(external receipt format): `name`, optional `specifier`, `extras`, and at
most one of `git`/`directory`/`editable` (each an optional string). -/
structure ReqEntry where
  name : Option String := none
  specifier : Option String := none
  extras : List String := []
  git : Option String := none
  directory : Option String := none
  editable : Option String := none
deriving DecidableEq, Repr

/-- `parse_requirement`: unify `git`/`directory`/`editable` into `url` with
Python `or` (truthiness), and `editable = bool(requirement.get("editable", False))`. -/
def parse_requirement (e : ReqEntry) : RequirementSpec :=
  { name := e.name
    version := e.specifier
    extras := e.extras
    url := pyOr (pyOr e.git e.directory) e.editable
    editable := strTruthy e.editable }

/-- Contents of a receipt file on disk: either undecodable (malformed TOML,
or missing the `tool`/`requirements` keys, both of which raise), or a
decoded `tool` table with its requirement entries and optional python pin. -/
inductive ReceiptFile where
  | malformed
  | wellFormed (reqs : List ReqEntry) (python : Option String)
deriving DecidableEq

/-- Error outcomes of a run, mirroring the Python exceptions that escape:
`tomlErr` (TOMLDecodeError / KeyError while reading a receipt), `keyErr`
(empty `requirements`: `requirements[0]` raises IndexError), `valueErr`
(a listing line without a space: unpacking `rsplit` raises ValueError),
`parseErr` (InvalidRequirement / argparse failure on a manifest line),
`typeErr` (`join`/`subprocess` applied to a `None` tool name), and
`procErr cmd` (`subprocess.run(cmd, check=True)` exited non-zero:
CalledProcessError, the spec's ExternalProcessError). -/
inductive Err where
  | tomlErr
  | keyErr
  | valueErr
  | parseErr
  | typeErr
  | procErr (cmd : List String)
deriving DecidableEq, Repr

/-- `parse_uv_receipt`: a missing file returns `None` (skipped); a present
but malformed file raises; an empty requirement list raises IndexError;
otherwise entry 0 is the primary and the rest are overrides. -/
def parse_uv_receipt (file : Option ReceiptFile) : Except Err (Option Tool) :=
  match file with
  | none => .ok none
  | some .malformed => .error .tomlErr
  | some (.wellFormed reqs python) =>
    match reqs with
    | [] => .error .keyErr
    | r0 :: rest =>
      .ok (some { primary := parse_requirement r0
                  additional := rest.map parse_requirement
                  python_version := python })

/-- Python `line.rsplit(" ", 1)` when it yields exactly two parts (`none`
when the line has no space, in which case the unpacking raises). -/
def rsplitSpace1 (l : List Char) : Option (List Char × List Char) :=
  let r := l.reverse
  let tail := r.takeWhile (fun c => c ≠ ' ')
  if tail.length = r.length then none
  else some ((r.drop (tail.length + 1)).reverse, tail.reverse)

/-- Python `path.strip("()")`. -/
def stripParens (l : List Char) : List Char :=
  let isP : Char → Bool := fun c => c = '(' || c = ')'
  (((l.dropWhile isP).reverse).dropWhile isP).reverse

/-- Python whitespace for `str.strip()` / `str.splitlines` boundaries that
can occur in this model. -/
def isPyWs (c : Char) : Bool :=
  c = ' ' || c = '\t' || c = '\n' || c = '\r' || c = '\x0b' || c = '\x0c'

/-- Python `line.strip()`. -/
def pyStrip (l : List Char) : List Char :=
  (((l.dropWhile isPyWs).reverse).dropWhile isPyWs).reverse

/-- Python `str.splitlines` (for text whose only line-boundary character
is `\n`, which is all this codec emits). -/
def pySplitlines : List Char → List (List Char) :=
  go []
where
  go (acc : List Char) : List Char → List (List Char)
    | [] => if acc.isEmpty then [] else [acc.reverse]
    | c :: cs => if c = '\n' then acc.reverse :: go [] cs else go (c :: acc) cs

/-- The external filesystem: maps a receipt path to its contents
(`none` = file does not exist). -/
def ReceiptFs := String → Option ReceiptFile

/-- The fixed listing invocation `uv tool list --show-paths`. -/
def listCmd : List String := ["uv", "tool", "list", "--show-paths"]

/-- One line of the listing: skip entrypoint lines starting with `-`,
otherwise `name_version, path = line.rsplit(" ", 1)` and read the receipt
at `path.strip("()") + "/uv-receipt.toml"`. -/
def processListingLine (fs : ReceiptFs) (l : List Char) :
    Except Err (Option Tool) :=
  if l.head? = some '-' then .ok none
  else
    match rsplitSpace1 l with
    | none => .error .valueErr
    | some (_, p) =>
      parse_uv_receipt (fs (String.mk (stripParens p) ++ "/uv-receipt.toml"))

/-- Process the listing lines in order, collecting parsed tools, skipping
`None` receipts, propagating the first raised error. -/
def toolsOfLines (fs : ReceiptFs) : List (List Char) → Except Err (List Tool)
  | [] => .ok []
  | l :: ls =>
    match processListingLine fs l with
    | .error e => .error e
    | .ok none => toolsOfLines fs ls
    | .ok (some t) =>
      match toolsOfLines fs ls with
      | .error e => .error e
      | .ok ts => .ok (t :: ts)

/-- `get_installed_tools`: run the listing (its non-zero exit raises
CalledProcessError), then `result.stdout.strip().splitlines()` and parse
each line's receipt. -/
def get_installed_tools (listing : Except Unit String) (fs : ReceiptFs) :
    Except Err (List Tool) :=
  match listing with
  | .error _ => .error (.procErr listCmd)
  | .ok stdout => toolsOfLines fs (pySplitlines (pyStrip stdout.data))

/-! ## Manifest codec: decoding (`collect_tool_metadata`)

The decoder tokenizes each manifest line with `shlex.split` and parses the
first token with `packaging.requirements.Requirement`, the rest with a
fixed `argparse` grammar.  `shlex.split` is modelled for quote-free input
(the only kind this codec emits): splitting on shlex whitespace.
`Requirement` is modelled for whitespace-free single-specifier tokens:
`name`, optional `[extras]`, then either `@url` or a version specifier. -/

/-- Characters `shlex` treats as token separators (`shlex.whitespace`). -/
def isShlexWs (c : Char) : Bool :=
  c = ' ' || c = '\t' || c = '\r' || c = '\n'

/-- `shlex.split` restricted to quote-free input: split on whitespace runs. -/
def shlexSplit : List Char → List (List Char) :=
  go []
where
  go (acc : List Char) : List Char → List (List Char)
    | [] => if acc.isEmpty then [] else [acc.reverse]
    | c :: cs =>
      if isShlexWs c then
        if acc.isEmpty then go [] cs else acc.reverse :: go [] cs
      else go (c :: acc) cs

/-- Characters `packaging` accepts inside a project name / extra
(identifier characters). -/
def identCh (c : Char) : Bool :=
  c.isAlphanum || c = '-' || c = '_' || c = '.'

/-- Characters that can appear after the operator of a (non-arbitrary)
PEP 440 specifier: alphanumerics, the segment separators `-`/`_`/`.`,
and the wildcard/local/epoch markers `*`/`+`/`!`. -/
def versionCh (c : Char) : Bool :=
  c.isAlphanum || c = '.' || c = '*' || c = '+' || c = '!' || c = '-' ||
  c = '_'

/-- The PEP 440 comparison operators, longest first. -/
def specOps : List (List Char) :=
  [['=', '=', '='], ['=', '='], ['!', '='], ['<', '='], ['>', '='],
   ['~', '='], ['<'], ['>']]

/-- The PEP 440 segment separators `[-_.]`. -/
def isSepCh (c : Char) : Bool := c = '-' || c = '_' || c = '.'

/-- Consume one optional separator (`[-_.]?`). -/
def eatSep (l : List Char) : List Char :=
  match l with
  | c :: rest => if isSepCh c then rest else l
  | [] => []

/-- Consume the optional `v` prefix of a version. -/
def eatV (l : List Char) : List Char :=
  match l with
  | c :: rest => if c = 'v' || c = 'V' then rest else l
  | [] => []

/-- Consume an optional epoch `([0-9]+!)?` (kept only when the `!` is
present, as the regex backtracks otherwise). -/
def eatEpoch (l : List Char) : List Char :=
  if !(l.takeWhile Char.isDigit).isEmpty &&
      (l.dropWhile Char.isDigit).head? == some '!' then
    (l.dropWhile Char.isDigit).tail
  else l

/-- Split off the release segment `[0-9]+(\.[0-9]+)*`: take the digit/dot
run, give back any trailing dots (the regex backtracks so a dot can
separate a following pre/post/dev tag or the `.*` wildcard).  Returns
whether the release has at least two segments (needed by `~=`) and the
rest of the input. -/
def splitRelease (l : List Char) : Option (Bool × List Char) :=
  let run := l.takeWhile (fun c => c.isDigit || c == '.')
  let rest := l.dropWhile (fun c => c.isDigit || c == '.')
  let core := (run.reverse.dropWhile (fun c => c == '.')).reverse
  let back := run.reverse.takeWhile (fun c => c == '.')
  if core.isEmpty then none
  else if (match core.head? with
           | some c => c.isDigit
           | none => false) &&
      (core.zip core.tail).all (fun p => !(p.1 == '.' && p.2 == '.')) then
    some (core.contains '.', back ++ rest)
  else none

/-- Case-insensitive keyword-prefix match against an ordered (longest
first) list of keywords, like the regex alternations of PEP 440 tags. -/
def eatKw : List (List Char) → List Char → Option (List Char)
  | [], _ => none
  | kw :: kws, l =>
    if (l.take kw.length).map Char.toLower = kw then some (l.drop kw.length)
    else eatKw kws l

/-- Consume an optional PEP 440 tag `([-_.]? kw [-_.]? [0-9]*)?`; when the
keyword is absent the whole group backtracks and nothing is consumed. -/
def eatTag (kws : List (List Char)) (l : List Char) : List Char :=
  match eatKw kws (eatSep l) with
  | some rest => (eatSep rest).dropWhile Char.isDigit
  | none => l

/-- Pre-release keywords, longest first. -/
def preKws : List (List Char) :=
  [['p', 'r', 'e', 'v', 'i', 'e', 'w'], ['a', 'l', 'p', 'h', 'a'],
   ['b', 'e', 't', 'a'], ['p', 'r', 'e'], ['r', 'c'], ['a'], ['b'], ['c']]

/-- Post-release keywords, longest first. -/
def postKws : List (List Char) :=
  [['p', 'o', 's', 't'], ['r', 'e', 'v'], ['r']]

/-- Consume an optional pre-release segment. -/
def eatPre (l : List Char) : List Char := eatTag preKws l

/-- Consume an optional post-release segment: the bare `-[0-9]+` form or
a tagged form. -/
def eatPost (l : List Char) : List Char :=
  match l with
  | '-' :: rest =>
    if (rest.takeWhile Char.isDigit).isEmpty then eatTag postKws l
    else rest.dropWhile Char.isDigit
  | _ => eatTag postKws l

/-- Consume an optional dev-release segment. -/
def eatDev (l : List Char) : List Char := eatTag [['d', 'e', 'v']] l

/-- A local version label `[a-z0-9]+([-_.][a-z0-9]+)*`, case-insensitive:
alphanumeric groups joined by single separators. -/
def localOk (l : List Char) : Bool :=
  !l.isEmpty &&
  l.all (fun c => c.isAlphanum || isSepCh c) &&
  (match l.head? with
   | some c => c.isAlphanum
   | none => false) &&
  (match l.getLast? with
   | some c => c.isAlphanum
   | none => false) &&
  (l.zip l.tail).all (fun p => !(isSepCh p.1 && isSepCh p.2))

/-- PEP 440 version admissibility after one operator, following
`packaging.specifiers.Specifier`'s regex: `===` takes an arbitrary token
(its character class is checked by `validSpec`); `==`/`!=` allow either a
release wildcard `release.*` or a full version with an optional local
label; `~=` needs at least two release segments and no local label; the
ordered operators take a public version only (no wildcard, no local). -/
def versionOk (op : List Char) (l : List Char) : Bool :=
  if op = ['=', '=', '='] then true
  else
    match splitRelease (eatEpoch (eatV l)) with
    | none => false
    | some (hasDot, rest) =>
      if (op = ['=', '='] ∨ op = ['!', '=']) ∧ rest = ['.', '*'] then true
      else
        let pub := eatDev (eatPost (eatPre rest))
        if op = ['~', '='] then hasDot && pub.isEmpty
        else if op = ['=', '='] ∨ op = ['!', '='] then
          pub.isEmpty || (pub.head? == some '+' && localOk pub.tail)
        else pub.isEmpty

/-- The characters an arbitrary-equality (`===`) version may contain:
anything but whitespace, `;` and `)` (the regex class `[^\s;)]`). -/
def specSafeCh (c : Char) : Bool :=
  !isPyWs c && !(c == ';') && !(c == ')')

/-- A valid single version specifier, as `packaging`'s `Specifier` regex
accepts it: one PEP 440 comparison operator followed by an admissible
version for that operator. -/
def validSpec (s : List Char) : Bool :=
  specOps.any fun op =>
    s.take op.length == op &&
    (if op = ['=', '=', '='] then (s.drop op.length).all specSafeCh
     else (s.drop op.length).all versionCh) &&
    versionOk op (s.drop op.length)

/-- Split an extras list on commas (`"a,b"` → `["a", "b"]`; empty input →
no extras, as `packaging` accepts `name[]`). -/
def splitCommas : List Char → List (List Char) :=
  fun l => if l.isEmpty then [] else go [] l
where
  go (acc : List Char) : List Char → List (List Char)
    | [] => [acc.reverse]
    | c :: cs => if c = ',' then acc.reverse :: go [] cs else go (c :: acc) cs

/-- The fields `collect_tool_metadata` reads off a parsed
`packaging.requirements.Requirement`. -/
structure ParsedReq where
  name : String
  extras : List String
  specifier : Option String
  url : Option String
deriving DecidableEq, Repr

/-- A regex word character (`\w` over ASCII): the `IDENTIFIER` token of
`packaging`'s tokenizer ends at a word boundary, so its last character
must be one of these. -/
def wordCh (c : Char) : Bool := c.isAlphanum || c = '_'

/-- What `\b[a-zA-Z0-9][a-zA-Z0-9._-]*\b` imposes on a maximal run of
identifier characters: the first character is alphanumeric and the last
is a word character.  (A trailing `-` or `.` makes the final word
boundary fail; the regex then backtracks, and the leftover punctuation
cannot start any other token, so the whole parse raises.) -/
def edgeOk (l : List Char) : Bool :=
  (match l.head? with
   | some c => c.isAlphanum
   | none => false) &&
  (match l.getLast? with
   | some c => wordCh c
   | none => false)

/-- The tail of a requirement token after its (already parsed) extras:
either nothing, `@url` (the url is everything after the `@`, non-empty),
or a version-specifier section.  `SpecifierSet` splits that section on
commas textually and validates every chunk as one `Specifier`;
`str(req.specifier)` then joins the deduplicated specifier texts sorted
(Python `sorted` on their strings), which for the single-specifier
inputs this codec emits is the identity.  (An empty chunk fails — as the
tokenizer's expected-specifier-after-comma check does; the one corner
where `SpecifierSet` would instead drop it, an earlier `===` specifier
having swallowed commas inside one greedy token, is rejected here.) -/
def parseReqAfterExtras (nm : List Char) (extras : List String)
    (rest : List Char) : Option ParsedReq :=
  if rest.isEmpty then some ⟨String.mk nm, extras, none, none⟩
  else if rest.head? = some '@' then
    if rest.tail.isEmpty then none
    else some ⟨String.mk nm, extras, none, some (String.mk rest.tail)⟩
  else if (splitCommas rest).all validSpec then
    some ⟨String.mk nm, extras,
      some (mkJoin ','
        (pySorted (((splitCommas rest).map String.mk).dedup))), none⟩
  else none

/-- The tail of a requirement token after its name: optional bracketed
extras (identifiers separated by commas, closed by `]`), then `@url` or a
version specifier or nothing. -/
def parseReqTail (nm : List Char) (rest : List Char) : Option ParsedReq :=
  if rest.head? = some '[' then
    if (rest.tail.dropWhile (fun d => d ≠ ']')).isEmpty then none
    else
      if (splitCommas (rest.tail.takeWhile (fun d => d ≠ ']'))).all
          (fun e => e.all identCh && edgeOk e) then
        parseReqAfterExtras nm
          (((splitCommas (rest.tail.takeWhile (fun d => d ≠ ']'))).map
            String.mk).dedup)
          ((rest.tail.dropWhile (fun d => d ≠ ']')).tail)
      else none
  else parseReqAfterExtras nm [] rest

/-- Model of `packaging.requirements.Requirement` on a whitespace-free
token: a name matching the tokenizer's `IDENTIFIER`
(`\b[a-zA-Z0-9][a-zA-Z0-9._-]*\b`, captured here as the maximal
identifier-character run with alphanumeric first and word-character last
characters), an optional bracketed extras list of the same identifiers,
then `@url` (any non-empty remainder) or a comma-separated specifier
list per the PEP 440 grammar of `packaging.specifiers`, or nothing.
`req.extras` is a Python `set`; it is modelled as the parsed list with
duplicates removed (first occurrence kept) — the decoder only ever
compares extras after sorting, so the set's unspecified iteration order
is irrelevant.  Environment markers (which need whitespace or quoting to
reach `Requirement` intact) are outside this quote-free model. -/
def parseRequirementToken (s : List Char) : Option ParsedReq :=
  if edgeOk (s.takeWhile identCh) then
    parseReqTail (s.takeWhile identCh) (s.dropWhile identCh)
  else none

/-- Result of the fixed `argparse` grammar over the trailing tokens of a
manifest line: `--python V`, `--editable`, repeated `--with R`, repeated
`--with-editable R`.  Any other token makes `parse_args` fail. -/
structure LineFlags where
  python : Option String := none
  editable : Bool := false
  additional : List String := []
  additional_editable : List String := []
deriving DecidableEq, Repr

/-- The `argparse` pass: option values may not themselves look like
options (a leading `-` fails with "expected one argument"); an
unrecognized token fails.  (argparse's exception for negative-number
values such as `-2` is not modelled: no token this codec emits, nor any
well-formed fragment or pin, is negative-number-shaped.) -/
def parseFlags : List String → LineFlags → Option LineFlags
  | [], acc => some acc
  | t :: rest, acc =>
    if t = "--python" then
      match rest with
      | [] => none
      | v :: rest' =>
        if v.data.head? = some '-' then none
        else parseFlags rest' { acc with python := some v }
    else if t = "--editable" then
      parseFlags rest { acc with editable := true }
    else if t = "--with" then
      match rest with
      | [] => none
      | v :: rest' =>
        if v.data.head? = some '-' then none
        else parseFlags rest' { acc with additional := acc.additional ++ [v] }
    else if t = "--with-editable" then
      match rest with
      | [] => none
      | v :: rest' =>
        if v.data.head? = some '-' then none
        else parseFlags rest'
          { acc with additional_editable := acc.additional_editable ++ [v] }
    else none

/-- Build the override spec for one `--with` / `--with-editable` argument:
`Requirement(requirement_str)` then the same field mapping as the primary,
with the given `editable` flag. -/
def parseAdditional (ed : Bool) (s : String) : Except Err RequirementSpec :=
  match parseRequirementToken s.data with
  | none => .error .parseErr
  | some pr =>
    .ok { name := some pr.name
          version := pr.specifier
          extras := pr.extras
          url := pr.url
          editable := ed }

/-- Parse the overrides of one line: all `--with` arguments (editable
false) then all `--with-editable` arguments (editable true), in order. -/
def parseAdditionals (fl : LineFlags) : Except Err (List RequirementSpec) :=
  match fl.additional.mapM (parseAdditional false) with
  | .error e => .error e
  | .ok ws =>
    match fl.additional_editable.mapM (parseAdditional true) with
    | .error e => .error e
    | .ok es => .ok (ws ++ es)

/-- Decode one stripped, non-empty, non-comment manifest line into a Tool. -/
def decodeLine (l : List Char) : Except Err Tool :=
  match shlexSplit l with
  | [] => .error .valueErr
  | reqTok :: extraArgs =>
    match parseRequirementToken reqTok with
    | none => .error .parseErr
    | some pr =>
      match parseFlags (extraArgs.map String.mk) {} with
      | none => .error .parseErr
      | some fl =>
        match parseAdditionals fl with
        | .error e => .error e
        | .ok adds =>
          .ok { primary := { name := some pr.name
                             version := pr.specifier
                             extras := pr.extras
                             url := pr.url
                             editable := fl.editable }
                additional := adds
                python_version := fl.python }

/-- Decode the kept (stripped, non-blank, non-comment) lines in order. -/
def decodeLines : List (List Char) → Except Err (List Tool)
  | [] => .ok []
  | l :: ls =>
    match decodeLine l with
    | .error e => .error e
    | .ok t =>
      match decodeLines ls with
      | .error e => .error e
      | .ok ts => .ok (t :: ts)

/-- Keep a manifest line?  After `strip`, blank lines and `#` comments are
skipped. -/
def keepLine (l : List Char) : Bool :=
  !l.isEmpty && l.head? ≠ some '#'

/-- `collect_tool_metadata`: a missing manifest yields no tools; otherwise
split into lines, strip each, skip blanks and comments, decode the rest. -/
def collect_tool_metadata (content : Option (List Char)) :
    Except Err (List Tool) :=
  match content with
  | none => .ok []
  | some text =>
    decodeLines (((pySplitlines text).map pyStrip).filter keepLine)

/-! ## Manifest codec: encoding (`write_uvfile`) -/

/-- The fixed header comment `write_uvfile` emits. -/
def uvfileHeader : String :=
  "# UVFile: Auto-generated file to track installed uv tools"

/-- One manifest line: `" ".join(tool.install_command())`. -/
def encodeLine (t : Tool) : List Char :=
  (mkJoin ' ' (t.install_command false)).data

/-- The full manifest text `write_uvfile` writes: header, blank line, one
line per tool joined by newlines. -/
def uvfileText (ts : List Tool) : List Char :=
  uvfileHeader.data ++ '\n' :: '\n' ::
    List.intercalate ['\n'] (ts.map encodeLine)

/-! ## Sync orchestrator (`install_from_uvfile`) and `write_uvfile`

The orchestrator's observable effects are modelled as an event trace:
stdout prints (`printed`), stderr diagnostics (`debugged`), external
process invocations (`ran`), and file writes (`wroteFile`).  A run returns
the trace together with the exception that escaped, if any; on an
exception the remaining actions are not attempted (fail fast). -/

inductive Event where
  | printed (msg : String)
  | debugged (msg : String)
  | ran (cmd : List String)
  | wroteFile (path : String) (text : String)
deriving DecidableEq, Repr

/-- Is this event a file write? -/
def Event.isWriteFile : Event → Bool
  | .wroteFile _ _ => true
  | _ => false

/-- `write_uvfile`: the only write the program performs — the manifest
text at the given path. -/
def write_uvfile (tools : List Tool) (uvfile_path : String) : List Event :=
  [.wroteFile uvfile_path (String.mk (uvfileText tools))]

/-- The environment a sync run interacts with: the listing subprocess's
outcome, the receipt filesystem, the manifest contents, and an oracle
giving the exit status of each install/uninstall invocation. -/
structure SyncEnv where
  listing : Except Unit String
  fs : ReceiptFs
  uvfile : Option (List Char)
  runOk : List String → Bool

/-- The removal name set: `installed_names - uvfile_names` when `strict or
uninstall`, else nothing is removed.  A Python set comprehension over the
installed tools; iteration order is modelled as first-occurrence order. -/
def removalNames (installed uvfile_tools : List Tool) (uninstall strict : Bool) :
    List (Option String) :=
  if strict || uninstall then
    ((installed.map (fun t => t.primary.name)).dedup).filter
      (fun n => n ∉ uvfile_tools.map (fun t => t.primary.name))
  else []

/-- The uninstall loop: print in dry-run, else debug-log and run the
command; a `None` name raises TypeError (`join`/`subprocess` of `None`);
a failing command raises and aborts the rest. -/
def runRemovals (runOk : List String → Bool) (dry_run verbose : Bool) :
    List (Option String) → List Event × Option Err
  | [] => ([], none)
  | none :: _ => ([], some .typeErr)
  | some n :: rest =>
    let cmd := ["uv", "tool", "uninstall", n]
    if dry_run then
      let (evs, out) := runRemovals runOk dry_run verbose rest
      (.printed ("Would run: " ++ mkJoin ' ' cmd) :: evs, out)
    else
      let dbg : List Event :=
        if verbose then [.debugged ("Uninstalling: " ++ n)] else []
      if runOk cmd then
        let (evs, out) := runRemovals runOk dry_run verbose rest
        (dbg ++ .ran cmd :: evs, out)
      else (dbg, some (.procErr cmd))

/-- Does the loop skip this declared tool?  Yes iff a same-named installed
tool exists (the FIRST match), it compares equal, and no forced reinstall. -/
def skipTool (installed : List Tool) (force : Bool) (t : Tool) : Bool :=
  match installed.find? (fun u => u.primary.name == t.primary.name) with
  | some u => toolEq t u && !force
  | none => false

/-- One install attempt: print in dry-run, else debug-log and run;
a failing command raises. -/
def installStep (runOk : List String → Bool) (dry_run verbose force : Bool)
    (t : Tool) : List Event × Option Err :=
  let cmd := ["uv", "tool", "install"] ++ t.install_command force
  if dry_run then ([.printed ("Would run: " ++ mkJoin ' ' cmd)], none)
  else
    let dbg : List Event :=
      if verbose then
        [.debugged ("Installing: " ++ fmtPyOpt t.primary.name)] else []
    if runOk cmd then (dbg ++ [.ran cmd], none)
    else (dbg, some (.procErr cmd))

/-- The install loop over the declared tools. -/
def runInstalls (runOk : List String → Bool)
    (dry_run verbose force : Bool) (installed : List Tool) :
    List Tool → List Event × Option Err
  | [] => ([], none)
  | t :: rest =>
    if skipTool installed force t then
      let dbg : List Event :=
        if verbose then
          [.debugged ("Skipping " ++ fmtPyOpt t.primary.name ++
            ", already installed.")] else []
      let (evs, out) := runInstalls runOk dry_run verbose force installed rest
      (dbg ++ evs, out)
    else
      match installStep runOk dry_run verbose force t with
      | (evs₀, some e) => (evs₀, some e)
      | (evs₀, none) =>
        let (evs, out) := runInstalls runOk dry_run verbose force installed rest
        (evs₀ ++ evs, out)

/-- `install_from_uvfile`: read installed state (always runs the listing,
even in dry-run), read the manifest, remove undeclared tools when
`strict or uninstall`, then install every declared tool that is missing,
differs, or is force-reinstalled. -/
def install_from_uvfile (reinstall uninstall strict dry_run verbose : Bool)
    (env : SyncEnv) : List Event × Option Err :=
  match get_installed_tools env.listing env.fs with
  | .error e => ([.ran listCmd], some e)
  | .ok installed_tools =>
    match collect_tool_metadata env.uvfile with
    | .error e => ([.ran listCmd], some e)
    | .ok uvfile_tools =>
      let (evs₁, out₁) :=
        runRemovals env.runOk dry_run verbose
          (removalNames installed_tools uvfile_tools uninstall strict)
      match out₁ with
      | some e => (.ran listCmd :: evs₁, some e)
      | none =>
        let (evs₂, out₂) :=
          runInstalls env.runOk dry_run verbose (reinstall || strict)
            installed_tools uvfile_tools
        (.ran listCmd :: evs₁ ++ evs₂, out₂)

/-! ## Well-formed tools (the domain on which encode/decode round-trips)

Each condition is forced by a real failure of the literal round-trip:
un-nameable specs, whitespace or quote characters (shlex), names not
matching the `packaging` grammar, flag-shaped values (argparse), version
strings that are not single normalized specifiers, duplicate extras
(`req.extras` is a set), `version`/`extras` on a url source (dropped by
rendering but compared by `__eq__`), an `editable` flag without a url
(dropped by rendering), an empty-string python pin (falsy, dropped by
rendering), and overrides sharing a sort key (the stable key-sort makes
`Tool.__eq__` order-sensitive there). -/

/-- A well-formed project name: identifier characters throughout, first
character alphanumeric, last character a word character — exactly the
shape `packaging`'s `IDENTIFIER` token accepts in full. -/
def wfName (s : String) : Bool :=
  s.data.all identCh && edgeOk s.data

/-- A well-formed extra: the same identifier shape as a name. -/
def wfExtra (s : String) : Bool :=
  s.data.all identCh && edgeOk s.data

/-- A well-formed url / local path: non-empty printable ASCII with no
spaces and none of shlex's quoting characters. -/
def wfUrl (s : String) : Bool :=
  !s.data.isEmpty && s.data.all fun c =>
    33 ≤ c.toNat && c.toNat ≤ 126 && c ≠ '"' && c ≠ '\'' && c ≠ '\\'

/-- A well-formed interpreter pin: like a url, and not flag-shaped. -/
def wfPin (s : String) : Bool :=
  wfUrl s && s.data.head? ≠ some '-'

/-- A well-formed requirement spec (primary or override): a well-formed
name; a url source carries a well-formed url and no version constraint or
extras; a registry source is non-editable, has well-formed deduplicated
extras, and its version constraint, when present, is a single valid
PEP 440 specifier made of printable quote-free characters. -/
def wfReq (r : RequirementSpec) : Bool :=
  match r.name with
  | none => false
  | some n =>
    wfName n &&
    match r.url with
    | some u => wfUrl u && r.version == none && r.extras == ([] : List String)
    | none =>
      !r.editable && r.extras.all wfExtra && r.extras.dedup == r.extras &&
      match r.version with
      | none => true
      | some v =>
        validSpec v.data && wfUrl v && v.data.all (fun c => !(c == ','))

/-- Pairwise-distinct sort keys among the overrides of one tool. -/
def distinctKeys : List RequirementSpec → Bool
  | [] => true
  | a :: rest => rest.all (fun b => !(sortKey a == sortKey b)) && distinctKeys rest

/-- A well-formed tool. -/
def wfTool (t : Tool) : Bool :=
  wfReq t.primary && t.additional.all wfReq && distinctKeys t.additional &&
  match t.python_version with
  | none => true
  | some p => wfPin p

/-- A well-formed collection: well-formed tools with pairwise-distinct
primary names. -/
def wfTools (ts : List Tool) : Bool :=
  ts.all wfTool &&
  (ts.map (fun t => t.primary.name)).dedup == ts.map (fun t => t.primary.name)

/-- The tool one listing line contributes when processing does not raise
(`none` for skipped entrypoint lines and missing receipts). -/
def lineToolOpt (fs : ReceiptFs) (l : List Char) : Option Tool :=
  match processListingLine fs l with
  | .ok (some t) => some t
  | _ => none

/-! ## Order lemmas for the code-point comparison -/

theorem char_eq_of_toNat_eq {a b : Char} (h : a.toNat = b.toNat) : a = b := by
  apply Char.ext
  exact UInt32.toNat.inj h

theorem clLt_irrefl : ∀ l, clLt l l = false := by
  intro l
  induction l with
  | nil => rfl
  | cons a as ih => simp [clLt, ih]

theorem clLt_asymm : ∀ {a b}, clLt a b = true → clLt b a = false := by
  intro a
  induction a with
  | nil =>
    intro b h
    cases b with
    | nil => simp [clLt] at h
    | cons c cs => rfl
  | cons x xs ih =>
    intro b h
    cases b with
    | nil => simp [clLt] at h
    | cons y ys =>
      simp only [clLt] at h ⊢
      by_cases h1 : x.toNat < y.toNat
      · have h2 : ¬ y.toNat < x.toNat := Nat.lt_asymm h1
        have h3 : ¬ y = x := fun e => by subst e; exact absurd h1 (Nat.lt_irrefl _)
        simp [h1, h2, h3]
      · simp only [h1, if_false] at h
        by_cases h2 : x = y
        · subst h2
          simp only [if_pos rfl] at h
          simp [Nat.lt_irrefl, ih h]
        · simp [h2] at h

theorem clLt_trans : ∀ {a b c}, clLt a b = true → clLt b c = true →
    clLt a c = true := by
  intro a
  induction a with
  | nil =>
    intro b c h1 h2
    cases b with
    | nil => exact h2
    | cons y ys =>
      cases c with
      | nil => simp [clLt] at h2
      | cons z zs => rfl
  | cons x xs ih =>
    intro b c h1 h2
    cases b with
    | nil => simp [clLt] at h1
    | cons y ys =>
      cases c with
      | nil => simp [clLt] at h2
      | cons z zs =>
        simp only [clLt] at h1 h2 ⊢
        by_cases hxy : x.toNat < y.toNat
        · by_cases hyz : y.toNat < z.toNat
          · simp [Nat.lt_trans hxy hyz]
          · simp only [hyz, if_false] at h2
            by_cases e : y = z
            · subst e; simp [hxy]
            · simp [e] at h2
        · simp only [hxy, if_false] at h1
          by_cases e : x = y
          · subst e
            simp only [if_pos rfl] at h1
            by_cases hyz : x.toNat < z.toNat
            · simp [hyz]
            · simp only [hyz, if_false] at h2 ⊢
              by_cases e2 : x = z
              · subst e2; simp at h2 ⊢; exact ih h1 h2
              · simp [e2] at h2
          · simp [e] at h1

theorem clLt_connex : ∀ {a b}, a ≠ b → clLt a b = true ∨ clLt b a = true := by
  intro a
  induction a with
  | nil =>
    intro b h
    cases b with
    | nil => exact absurd rfl h
    | cons y ys => left; rfl
  | cons x xs ih =>
    intro b h
    cases b with
    | nil => right; rfl
    | cons y ys =>
      by_cases e : x = y
      · subst e
        have hne : xs ≠ ys := fun hh => h (by rw [hh])
        rcases ih hne with h1 | h1
        · left; simp [clLt, Nat.lt_irrefl, h1]
        · right; simp [clLt, Nat.lt_irrefl, h1]
      · rcases Nat.lt_trichotomy x.toNat y.toNat with h1 | h1 | h1
        · left; simp [clLt, h1]
        · exact absurd (char_eq_of_toNat_eq h1) e
        · right
          have : ¬ y = x := fun hh => e hh.symm
          simp [clLt, h1, this]

theorem strLe_total : ∀ a b : String, strLe a b ∨ strLe b a := by
  intro a b
  unfold strLe
  by_cases h : clLt b.data a.data = true
  · right
    exact clLt_asymm h
  · left
    exact Bool.not_eq_true _ ▸ eq_false_of_ne_true h

theorem string_ext {a b : String} (h : a.data = b.data) : a = b := by
  cases a; cases b
  exact congrArg String.mk (by simpa using h)

theorem strLe_antisymm : ∀ {a b : String}, strLe a b → strLe b a → a = b := by
  intro a b h1 h2
  unfold strLe at h1 h2
  by_cases e : a.data = b.data
  · exact string_ext e
  · rcases clLt_connex e with h3 | h3
    · rw [h3] at h2; cases h2
    · rw [h3] at h1; cases h1

theorem strLe_trans : ∀ {a b c : String}, strLe a b → strLe b c → strLe a c := by
  intro a b c h1 h2
  unfold strLe at h1 h2 ⊢
  by_cases h3 : clLt c.data a.data = true
  · exfalso
    by_cases e : a.data = b.data
    · rw [e] at h3; rw [h3] at h2; cases h2
    · rcases clLt_connex e with h4 | h4
      · have := clLt_trans h3 h4
        rw [this] at h2; cases h2
      · rw [h4] at h1; cases h1
  · exact Bool.not_eq_true _ ▸ eq_false_of_ne_true h3

theorem pySorted_perm_inv {l₁ l₂ : List String} (h : l₁.Perm l₂) :
    pySorted l₁ = pySorted l₂ := by
  refine @List.eq_of_perm_of_sorted String strLe ⟨fun a b h1 h2 => strLe_antisymm h1 h2⟩
    _ _ ?_ ?_ ?_
  · exact ((List.perm_insertionSort strLe l₁).trans h).trans
      (List.perm_insertionSort strLe l₂).symm
  · exact @List.sorted_insertionSort String strLe _
      ⟨fun a b => strLe_total a b⟩ ⟨fun a b c h1 h2 => strLe_trans h1 h2⟩ l₁
  · exact @List.sorted_insertionSort String strLe _
      ⟨fun a b => strLe_total a b⟩ ⟨fun a b c h1 h2 => strLe_trans h1 h2⟩ l₂

/-! ## Order lemmas for the override sort key -/

theorem keyLt_irrefl (a : String × String) : keyLt a a = false := by
  simp [keyLt, clLt_irrefl]

theorem keyLt_asymm {a b : String × String} (h : keyLt a b = true) :
    keyLt b a = false := by
  unfold keyLt at h ⊢
  by_cases h1 : clLt a.1.data b.1.data = true
  · have h2 : clLt b.1.data a.1.data = false := clLt_asymm h1
    have h3 : ¬ b.1 = a.1 := by
      intro e
      rw [e] at h1
      rw [clLt_irrefl] at h1
      cases h1
    simp [h2, h3]
  · simp only [h1, Bool.false_eq_true, if_false] at h
    by_cases h2 : a.1 = b.1
    · simp only [h2, if_pos rfl] at h
      have h3 : clLt b.1.data a.1.data = false := by
        rw [h2]; exact clLt_irrefl _
      simp [h3, h2.symm, clLt_asymm h, clLt_irrefl]
    · simp [h2] at h

theorem keyLt_trans {a b c : String × String} (h1 : keyLt a b = true)
    (h2 : keyLt b c = true) : keyLt a c = true := by
  unfold keyLt at h1 h2 ⊢
  by_cases c1 : clLt a.1.data b.1.data = true
  · by_cases c2 : clLt b.1.data c.1.data = true
    · simp [clLt_trans c1 c2]
    · simp only [c2, Bool.false_eq_true, if_false] at h2
      by_cases e : b.1 = c.1
      · rw [e] at c1; simp [c1]
      · simp [e] at h2
  · simp only [c1, Bool.false_eq_true, if_false] at h1
    by_cases e : a.1 = b.1
    · simp only [e, if_pos rfl] at h1
      by_cases c2 : clLt b.1.data c.1.data = true
      · rw [← e] at c2; simp [c2]
      · simp only [c2, Bool.false_eq_true, if_false] at h2
        by_cases e2 : b.1 = c.1
        · simp only [e2, if_pos rfl] at h2
          have e3 : a.1 = c.1 := e.trans e2
          have c3 : clLt a.1.data c.1.data = false := by
            rw [e3]; exact clLt_irrefl _
          simp [c3, e3, clLt_trans h1 h2]
        · simp [e2] at h2
    · simp [e] at h1

theorem keyLt_connex {a b : String × String} (h : a ≠ b) :
    keyLt a b = true ∨ keyLt b a = true := by
  by_cases e1 : a.1 = b.1
  · have e2 : a.2 ≠ b.2 := by
      intro e2
      exact h (Prod.ext e1 e2)
    have e3 : a.2.data ≠ b.2.data := fun hh => e2 (string_ext hh)
    rcases clLt_connex e3 with h1 | h1
    · left; simp [keyLt, e1, clLt_irrefl, h1]
    · right; simp [keyLt, e1.symm, clLt_irrefl, h1]
  · have e3 : a.1.data ≠ b.1.data := fun hh => e1 (string_ext hh)
    rcases clLt_connex e3 with h1 | h1
    · left; simp [keyLt, h1]
    · right; simp [keyLt, h1]

theorem keyLt_eq_of_both_false {a b : String × String}
    (h1 : keyLt a b = false) (h2 : keyLt b a = false) : a = b := by
  by_cases e : a = b
  · exact e
  · rcases keyLt_connex e with h3 | h3
    · rw [h3] at h1; cases h1
    · rw [h3] at h2; cases h2

theorem addLe_total : ∀ a b : RequirementSpec, addLe a b ∨ addLe b a := by
  intro a b
  unfold addLe
  by_cases h : keyLt (sortKey b) (sortKey a) = true
  · right
    exact keyLt_asymm h
  · left
    exact Bool.not_eq_true _ ▸ eq_false_of_ne_true h

theorem addLe_trans : ∀ {a b c : RequirementSpec}, addLe a b → addLe b c →
    addLe a c := by
  intro a b c h1 h2
  unfold addLe at h1 h2 ⊢
  by_cases h3 : keyLt (sortKey c) (sortKey a) = true
  · exfalso
    by_cases e : sortKey a = sortKey b
    · rw [e] at h3; rw [h3] at h2; cases h2
    · rcases keyLt_connex e with h4 | h4
      · have := keyLt_trans h3 h4
        rw [this] at h2; cases h2
      · rw [h4] at h1; cases h1
  · exact Bool.not_eq_true _ ▸ eq_false_of_ne_true h3

theorem sortAdd_sorted (l : List RequirementSpec) :
    List.Sorted addLe (sortAdd l) :=
  @List.sorted_insertionSort RequirementSpec addLe _
    ⟨fun a b => addLe_total a b⟩ ⟨fun _ _ _ h1 h2 => addLe_trans h1 h2⟩ l

theorem eq_of_perm_sorted_distinct :
    ∀ (l₁ l₂ : List RequirementSpec), l₁.Perm l₂ →
      List.Sorted addLe l₁ → List.Sorted addLe l₂ →
      List.Pairwise (fun a b => sortKey a ≠ sortKey b) l₁ → l₁ = l₂ := by
  intro l₁
  induction l₁ with
  | nil =>
    intro l₂ hp _ _ _
    exact (hp.nil_eq).symm ▸ rfl
  | cons a t₁ ih =>
    intro l₂ hp hs₁ hs₂ hd
    cases l₂ with
    | nil => exact absurd hp.symm.nil_eq (by simp)
    | cons b t₂ =>
      have hab : a = b := by
        by_cases e : a = b
        · exact e
        · have ha2 : a ∈ b :: t₂ := hp.mem_iff.mp (List.mem_cons_self a t₁)
          have hb1 : b ∈ a :: t₁ := hp.symm.mem_iff.mp (List.mem_cons_self b t₂)
          have ha2' : a ∈ t₂ := by
            rcases List.mem_cons.mp ha2 with h | h
            · exact absurd h e
            · exact h
          have hb1' : b ∈ t₁ := by
            rcases List.mem_cons.mp hb1 with h | h
            · exact absurd h.symm e
            · exact h
          have h1 : addLe a b := (List.sorted_cons.mp hs₁).1 b hb1'
          have h2 : addLe b a := (List.sorted_cons.mp hs₂).1 a ha2'
          have hk : sortKey b = sortKey a := keyLt_eq_of_both_false h1 h2
          have hne : sortKey a ≠ sortKey b :=
            (List.pairwise_cons.mp hd).1 b hb1'
          exact absurd hk.symm hne
      subst hab
      have ht : t₁.Perm t₂ := hp.cons_inv
      have := ih t₂ ht (List.sorted_cons.mp hs₁).2 (List.sorted_cons.mp hs₂).2
        (List.pairwise_cons.mp hd).2
      rw [this]

theorem sortAdd_perm_of_distinct {l₁ l₂ : List RequirementSpec}
    (hp : l₁.Perm l₂)
    (hd : List.Pairwise (fun a b => sortKey a ≠ sortKey b) l₁) :
    sortAdd l₁ = sortAdd l₂ := by
  have p₁ : (sortAdd l₁).Perm l₁ := List.perm_insertionSort addLe l₁
  have p₂ : (sortAdd l₂).Perm l₂ := List.perm_insertionSort addLe l₂
  refine eq_of_perm_sorted_distinct _ _ ((p₁.trans hp).trans p₂.symm)
    (sortAdd_sorted l₁) (sortAdd_sorted l₂) ?_
  exact (List.Perm.pairwise_iff (fun h => h.symm) p₁).mpr hd

/-! ## Equivalence-engine lemmas -/

theorem reqEq_iff {a b : RequirementSpec} :
    reqEq a b = true ↔
      a.name = b.name ∧ a.version = b.version ∧
      pySorted a.extras = pySorted b.extras ∧
      a.url = b.url ∧ a.editable = b.editable := by
  simp [reqEq, Bool.and_eq_true, beq_iff_eq, and_assoc]

theorem reqEq_refl (a : RequirementSpec) : reqEq a a = true := by
  rw [reqEq_iff]
  exact ⟨rfl, rfl, rfl, rfl, rfl⟩

theorem reqEq_true_symm {a b : RequirementSpec} (h : reqEq a b = true) :
    reqEq b a = true := by
  rw [reqEq_iff] at h ⊢
  obtain ⟨h1, h2, h3, h4, h5⟩ := h
  exact ⟨h1.symm, h2.symm, h3.symm, h4.symm, h5.symm⟩

theorem reqEq_comm (a b : RequirementSpec) : reqEq a b = reqEq b a := by
  cases hab : reqEq a b with
  | true => exact (reqEq_true_symm hab).symm
  | false =>
    cases hba : reqEq b a with
    | true => rw [reqEq_true_symm hba] at hab; cases hab
    | false => rfl

theorem reqEq_sortKey {a b : RequirementSpec} (h : reqEq a b = true) :
    sortKey a = sortKey b := by
  rw [reqEq_iff] at h
  unfold sortKey
  rw [h.1, h.2.1]

theorem reqEq_of_extras_perm {a b : RequirementSpec} (hn : a.name = b.name)
    (hv : a.version = b.version) (hu : a.url = b.url)
    (he : a.editable = b.editable) (hx : a.extras.Perm b.extras) :
    reqEq a b = true := by
  rw [reqEq_iff]
  exact ⟨hn, hv, pySorted_perm_inv hx, hu, he⟩

theorem reqEq_false_of_length {a b : RequirementSpec}
    (h : a.extras.length ≠ b.extras.length) : reqEq a b = false := by
  cases hab : reqEq a b with
  | false => rfl
  | true =>
    exfalso
    apply h
    have h3 := (reqEq_iff.mp hab).2.2.1
    have l1 : (pySorted a.extras).length = a.extras.length :=
      (List.perm_insertionSort strLe a.extras).length_eq
    have l2 : (pySorted b.extras).length = b.extras.length :=
      (List.perm_insertionSort strLe b.extras).length_eq
    rw [← l1, ← l2, h3]

theorem reqEq_false_of_version {a b : RequirementSpec}
    (h : a.version ≠ b.version) : reqEq a b = false := by
  cases hab : reqEq a b with
  | false => rfl
  | true => exact absurd (reqEq_iff.mp hab).2.1 h

theorem reqListEq_refl : ∀ l, reqListEq l l = true := by
  intro l
  induction l with
  | nil => rfl
  | cons a as ih => simp [reqListEq, reqEq_refl, ih]

theorem reqListEq_comm : ∀ l₁ l₂, reqListEq l₁ l₂ = reqListEq l₂ l₁ := by
  intro l₁
  induction l₁ with
  | nil => intro l₂; cases l₂ <;> rfl
  | cons a as ih =>
    intro l₂
    cases l₂ with
    | nil => rfl
    | cons b bs => simp [reqListEq, reqEq_comm a b, ih bs]

theorem reqListEq_of_forall₂ {l₁ l₂ : List RequirementSpec}
    (h : List.Forall₂ (fun a b => reqEq a b = true) l₁ l₂) :
    reqListEq l₁ l₂ = true := by
  induction h with
  | nil => rfl
  | cons h1 _ ih => simp [reqListEq, h1, ih]

theorem addLe_congr {a b x y : RequirementSpec} (h1 : sortKey a = sortKey b)
    (h2 : sortKey x = sortKey y) : addLe a x ↔ addLe b y := by
  unfold addLe
  rw [h1, h2]

theorem orderedInsert_forall₂ {R : RequirementSpec → RequirementSpec → Prop}
    (hkey : ∀ {x y}, R x y → sortKey x = sortKey y) {a b : RequirementSpec}
    (hab : R a b) :
    ∀ {s₁ s₂ : List RequirementSpec}, List.Forall₂ R s₁ s₂ →
      List.Forall₂ R (s₁.orderedInsert addLe a) (s₂.orderedInsert addLe b) := by
  intro s₁ s₂ h
  induction h with
  | nil => exact List.Forall₂.cons hab List.Forall₂.nil
  | cons hxy hrest ih =>
    rename_i x y t₁ t₂
    simp only [List.orderedInsert]
    by_cases hc : addLe a x
    · rw [if_pos hc, if_pos (((addLe_congr (hkey hab) (hkey hxy)).mp) hc)]
      exact List.Forall₂.cons hab (List.Forall₂.cons hxy hrest)
    · rw [if_neg hc, if_neg (fun hh => hc ((addLe_congr (hkey hab) (hkey hxy)).mpr hh))]
      exact List.Forall₂.cons hxy ih

theorem sortAdd_forall₂ {R : RequirementSpec → RequirementSpec → Prop}
    (hkey : ∀ {x y}, R x y → sortKey x = sortKey y)
    {l₁ l₂ : List RequirementSpec} (h : List.Forall₂ R l₁ l₂) :
    List.Forall₂ R (sortAdd l₁) (sortAdd l₂) := by
  induction h with
  | nil => exact List.Forall₂.nil
  | cons hab hrest ih =>
    simp only [sortAdd, List.insertionSort]
    exact orderedInsert_forall₂ hkey hab ih

theorem toolEq_iff {a b : Tool} :
    toolEq a b = true ↔
      reqEq a.primary b.primary = true ∧
      reqListEq (sortAdd a.additional) (sortAdd b.additional) = true ∧
      a.python_version = b.python_version := by
  simp [toolEq, Bool.and_eq_true, beq_iff_eq, and_assoc]

theorem toolEq_refl (t : Tool) : toolEq t t = true := by
  rw [toolEq_iff]
  exact ⟨reqEq_refl _, reqListEq_refl _, rfl⟩

theorem toolEq_comm (a b : Tool) : toolEq a b = toolEq b a := by
  unfold toolEq
  rw [reqEq_comm, reqListEq_comm]
  by_cases h : a.python_version = b.python_version
  · rw [h]
  · have h1 : (a.python_version == b.python_version) = false := by
      simp [beq_eq_false_iff_ne, h]
    have h2 : (b.python_version == a.python_version) = false := by
      simp [beq_eq_false_iff_ne, Ne.symm h]
    rw [h1, h2]

theorem toolEq_of_parts {a b : Tool}
    (h1 : reqEq a.primary b.primary = true)
    (h2 : List.Forall₂ (fun x y => reqEq x y = true) a.additional b.additional)
    (h3 : a.python_version = b.python_version) : toolEq a b = true := by
  rw [toolEq_iff]
  refine ⟨h1, reqListEq_of_forall₂ ?_, h3⟩
  exact sortAdd_forall₂ (fun h => reqEq_sortKey h) h2

theorem toolEq_false_of_primary {a b : Tool}
    (h : reqEq a.primary b.primary = false) : toolEq a b = false := by
  simp [toolEq, h]

theorem toolEq_of_additional_perm {a b : Tool}
    (h1 : reqEq a.primary b.primary = true)
    (hp : a.additional.Perm b.additional)
    (hd : List.Pairwise (fun x y => sortKey x ≠ sortKey y) a.additional)
    (h3 : a.python_version = b.python_version) : toolEq a b = true := by
  rw [toolEq_iff]
  rw [sortAdd_perm_of_distinct hp hd]
  exact ⟨h1, reqListEq_refl _, h3⟩

/-! ## Claims C1–C3 -/

/-- C1 (counterexample): two url-source specs agreeing on name, url and
editable but differing in version constraint are NOT judged equivalent —
`RequirementSpec.__eq__` compares `version` (and `extras`) for every
source, url or not.  The claim's "judged equivalent" fails. -/
theorem c1_counterexample :
    reqEq
      { name := some "pkg", version := some ">=1", extras := [],
        url := some "git+https://example.com/r.git", editable := false }
      { name := some "pkg", version := some ">=2", extras := [],
        url := some "git+https://example.com/r.git", editable := false }
      = false := by decide

/-- C1 (amended): for specs with a truthy url source agreeing on name, url
and editable flag, the rendered install-command fragment is identical
regardless of version constraint and extras; but the equivalence check
still compares version constraints and (sorted) extras, so such pairs are
judged NOT equivalent whenever those fields differ. -/
theorem c1_url_source_rendering_vs_eq (a b : RequirementSpec)
    (hau : strTruthy a.url = true) (hn : a.name = b.name)
    (hu : a.url = b.url) (he : a.editable = b.editable) :
    (∀ as_with, a.to_install_args as_with = b.to_install_args as_with) ∧
    (a.version ≠ b.version → reqEq a b = false) ∧
    (pySorted a.extras ≠ pySorted b.extras → reqEq a b = false) := by
  have hbu : strTruthy b.url = true := by rw [← hu]; exact hau
  have hfrag : a.fragment = b.fragment := by
    unfold RequirementSpec.fragment
    rw [hau, hbu]
    simp only [if_true]
    rw [hn, hu]
  refine ⟨?_, ?_, ?_⟩
  · intro as_with
    unfold RequirementSpec.to_install_args
    rw [hau, hbu, hfrag, he]
  · intro hv
    exact reqEq_false_of_version hv
  · intro hx
    cases hab : reqEq a b with
    | false => rfl
    | true => exact absurd (reqEq_iff.mp hab).2.2.1 hx

theorem c1_witness :
    (strTruthy (some "https://example.com/x" : Option String) = true ∧
      RequirementSpec.to_install_args
        { name := some "pkg", version := some ">=1", extras := ["z"],
          url := some "https://example.com/x", editable := false } false =
      RequirementSpec.to_install_args
        { name := some "pkg", version := none, extras := [],
          url := some "https://example.com/x", editable := false } false) ∧
    reqEq
      { name := some "pkg", version := some ">=1", extras := ["z"],
        url := some "https://example.com/x", editable := false }
      { name := some "pkg", version := none, extras := [],
        url := some "https://example.com/x", editable := false } = false := by
  have h := c1_url_source_rendering_vs_eq
    { name := some "pkg", version := some ">=1", extras := ["z"],
      url := some "https://example.com/x", editable := false }
    { name := some "pkg", version := none, extras := [],
      url := some "https://example.com/x", editable := false }
    (by decide) rfl rfl rfl
  exact ⟨⟨by decide, h.1 false⟩, h.2.1 (by decide)⟩

/-- C2 (counterexample): a tool without an interpreter pin and the same
tool with an empty-string pin are NOT judged equivalent — `Tool.__eq__`
compares the pins with plain `==`, and `None == ""` is false in Python. -/
theorem c2_counterexample :
    toolEq
      { primary := { name := some "ruff" }, additional := [],
        python_version := none }
      { primary := { name := some "ruff" }, additional := [],
        python_version := some "" } = false := by decide

/-- C2 (amended): for tools agreeing on primary requirement and overrides,
equivalence holds exactly when the two pins are equal as
`Optional[str]` values: an absent pin differs from an empty-string pin,
and an absent pin differs from any concrete pin. -/
theorem c2_pin_plain_equality (a b : Tool) (h1 : a.primary = b.primary)
    (h2 : a.additional = b.additional) :
    toolEq a b = true ↔ a.python_version = b.python_version := by
  constructor
  · intro h
    exact (toolEq_iff.mp h).2.2
  · intro h
    rw [toolEq_iff, h1, h2]
    exact ⟨reqEq_refl _, reqListEq_refl _, h⟩

theorem c2_witness :
    (toolEq
      { primary := { name := some "mypy" }, additional := [],
        python_version := none }
      { primary := { name := some "mypy" }, additional := [],
        python_version := some "3.12" } = true ↔
      (none : Option String) = some "3.12") := by
  exact c2_pin_plain_equality
    { primary := { name := some "mypy" }, additional := [],
      python_version := none }
    { primary := { name := some "mypy" }, additional := [],
      python_version := some "3.12" } rfl rfl

/-- C3 (counterexample): duplicating an element of an extras list does NOT
yield an equivalent ToolSpec — extras are compared as sorted lists with
multiplicity, not as sets. -/
theorem c3_counterexample :
    toolEq
      { primary := { name := some "x", extras := ["a"] }, additional := [],
        python_version := none }
      { primary := { name := some "x", extras := ["a", "a"] },
        additional := [], python_version := none } = false := by decide

/-- C3 (amended): tool equivalence is reflexive and symmetric; permuting
the override declaration order preserves equivalence provided the
overrides carry pairwise-distinct `(name, version)` sort keys (the stable
key-sort is order-sensitive between equal keys); permuting any extras list
(of the primary, or pointwise of the overrides) preserves equivalence;
but duplicating an extras element breaks equivalence (sorted-list, not
set, comparison), and changing the primary version-constraint string
breaks equivalence. -/
theorem c3_equivalence_algebra :
    (∀ t : Tool, toolEq t t = true) ∧
    (∀ a b : Tool, toolEq a b = toolEq b a) ∧
    (∀ (t : Tool) (l : List RequirementSpec), t.additional.Perm l →
      List.Pairwise (fun x y => sortKey x ≠ sortKey y) t.additional →
      toolEq t { t with additional := l } = true) ∧
    (∀ (t : Tool) (x : List String), t.primary.extras.Perm x →
      toolEq t { t with primary := { t.primary with extras := x } } = true) ∧
    (∀ (t : Tool) (l : List RequirementSpec),
      List.Forall₂ (fun p q => p.name = q.name ∧ p.version = q.version ∧
        p.url = q.url ∧ p.editable = q.editable ∧ p.extras.Perm q.extras)
        t.additional l →
      toolEq t { t with additional := l } = true) ∧
    (∀ (t : Tool) (e : String), e ∈ t.primary.extras →
      toolEq t { t with primary :=
        { t.primary with extras := e :: t.primary.extras } } = false) ∧
    (∀ (t : Tool) (v : Option String), v ≠ t.primary.version →
      toolEq t { t with primary :=
        { t.primary with version := v } } = false) := by
  refine ⟨toolEq_refl, toolEq_comm, ?_, ?_, ?_, ?_, ?_⟩
  · intro t l hp hd
    exact toolEq_of_additional_perm (reqEq_refl _) hp hd rfl
  · intro t x hx
    apply toolEq_of_parts
    · exact reqEq_of_extras_perm rfl rfl rfl rfl hx
    · exact List.forall₂_same.mpr (fun r _ => reqEq_refl r)
    · rfl
  · intro t l hf
    refine toolEq_of_parts (reqEq_refl _) ?_ rfl
    refine hf.imp ?_
    intro p q hpq
    exact reqEq_of_extras_perm hpq.1 hpq.2.1 hpq.2.2.1 hpq.2.2.2.1 hpq.2.2.2.2
  · intro t e _
    apply toolEq_false_of_primary
    apply reqEq_false_of_length
    simp
  · intro t v hv
    apply toolEq_false_of_primary
    apply reqEq_false_of_version
    exact fun h => hv h.symm

theorem c3_witness :
    (toolEq
      { primary := { name := some "x" },
        additional := [{ name := some "a" }, { name := some "b" }],
        python_version := none }
      { primary := { name := some "x" },
        additional := [{ name := some "b" }, { name := some "a" }],
        python_version := none } = true) ∧
    (toolEq
      { primary := { name := some "x", extras := ["m", "n"] },
        additional := [], python_version := none }
      { primary := { name := some "x", extras := ["n", "m"] },
        additional := [], python_version := none } = true) ∧
    (toolEq
      { primary := { name := some "x", extras := ["m"] },
        additional := [], python_version := none }
      { primary := { name := some "x", extras := ["m", "m"] },
        additional := [], python_version := none } = false) ∧
    (toolEq
      { primary := { name := some "x", version := some ">=1" },
        additional := [], python_version := none }
      { primary := { name := some "x", version := some ">=2" },
        additional := [], python_version := none } = false) := by
  refine ⟨?_, ?_, ?_, ?_⟩
  · exact c3_equivalence_algebra.2.2.1
      { primary := { name := some "x" },
        additional := [{ name := some "a" }, { name := some "b" }],
        python_version := none }
      [{ name := some "b" }, { name := some "a" }]
      (List.Perm.swap _ _ _) (by decide)
  · exact c3_equivalence_algebra.2.2.2.1
      { primary := { name := some "x", extras := ["m", "n"] },
        additional := [], python_version := none }
      ["n", "m"] (List.Perm.swap _ _ _)
  · exact c3_equivalence_algebra.2.2.2.2.2.1
      { primary := { name := some "x", extras := ["m"] },
        additional := [], python_version := none }
      "m" (by decide)
  · exact c3_equivalence_algebra.2.2.2.2.2.2
      { primary := { name := some "x", version := some ">=1" },
        additional := [], python_version := none }
      (some ">=2") (by decide)

/-! ## Claims C6 and C7 -/

/-- C6 (counterexample): with the name absent, the rendered fragment for a
url source is the literal string `None@url` — Python's f-string renders
the missing name as "None" — not the bare url the claim states. -/
theorem c6_counterexample :
    RequirementSpec.fragment
      { name := none, version := none, extras := [],
        url := some "https://example.com/x", editable := false }
      = "None@https://example.com/x" ∧
    RequirementSpec.fragment
      { name := none, version := none, extras := [],
        url := some "https://example.com/x", editable := false }
      ≠ "https://example.com/x" := by
  refine ⟨by decide, by decide⟩

/-- C6 (amended): for a RequirementSpec with a truthy url source the
rendered fragment is `name@url` when a name is known, and the literal
`None@url` (not the bare url) when the name is absent. -/
theorem c6_url_fragment (r : RequirementSpec) (u : String)
    (hu : r.url = some u) (ht : strTruthy r.url = true) :
    (∀ n, r.name = some n → r.fragment = n ++ "@" ++ u) ∧
    (r.name = none → r.fragment = "None@" ++ u) := by
  constructor
  · intro n hn
    unfold RequirementSpec.fragment
    rw [ht, if_pos rfl, hn, hu]
    rfl
  · intro hn
    unfold RequirementSpec.fragment
    rw [ht, if_pos rfl, hn, hu]
    show ("None" ++ "@") ++ u = "None@" ++ u
    rfl

theorem c6_witness :
    (RequirementSpec.fragment
      { name := some "tool", version := none, extras := [],
        url := some "file:///opt/t", editable := false } =
        "tool" ++ "@" ++ "file:///opt/t") ∧
    (RequirementSpec.fragment
      { name := none, version := none, extras := [],
        url := some "file:///opt/t", editable := false } =
        "None@" ++ "file:///opt/t") :=
  ⟨(c6_url_fragment
      { name := some "tool", version := none, extras := [],
        url := some "file:///opt/t", editable := false }
      "file:///opt/t" rfl (by decide)).1 "tool" rfl,
   (c6_url_fragment
      { name := none, version := none, extras := [],
        url := some "file:///opt/t", editable := false }
      "file:///opt/t" rfl (by decide)).2 rfl⟩

/-- C7 (counterexample): a present-but-malformed receipt is NOT skipped —
`toml.loads` raises and the whole installed-state read fails; only the
first tool (good receipt) would have been collected.  Listing two tools
where the second's receipt is malformed aborts the read with the TOML
error instead of skipping that tool. -/
theorem c7_counterexample :
    get_installed_tools (.ok "a 1.0 (/a)\nb 1.0 (/b)")
      (fun p =>
        if p = "/a/uv-receipt.toml" then
          some (.wellFormed [{ name := some "a", specifier := some "==1.0" }]
            none)
        else if p = "/b/uv-receipt.toml" then some .malformed
        else none) = .error .tomlErr := by
  rfl

/-- C7 (amended): a MISSING receipt causes only that one tool to be
skipped, and if every listing line processes without raising, the read
succeeds and returns exactly the tools of the non-skipped lines; but a
present-and-malformed receipt raises, aborting the whole read. -/
theorem c7_receipt_handling :
    (∀ (fs : ReceiptFs) (l : List Char) (pre path : List Char),
      l.head? ≠ some '-' → rsplitSpace1 l = some (pre, path) →
      fs (String.mk (stripParens path) ++ "/uv-receipt.toml") = none →
      processListingLine fs l = .ok none) ∧
    (∀ (fs : ReceiptFs) (lines : List (List Char)),
      (∀ l ∈ lines, (processListingLine fs l).isOk = true) →
      toolsOfLines fs lines = .ok (lines.filterMap (lineToolOpt fs))) ∧
    (∀ (fs : ReceiptFs) (l : List Char) (pre path : List Char),
      l.head? ≠ some '-' → rsplitSpace1 l = some (pre, path) →
      fs (String.mk (stripParens path) ++ "/uv-receipt.toml") =
        some .malformed →
      processListingLine fs l = .error .tomlErr) ∧
    (∀ (fs : ReceiptFs) (lines : List (List Char)),
      (∃ l ∈ lines, (processListingLine fs l).isOk = false) →
      ∃ e, toolsOfLines fs lines = .error e) := by
  refine ⟨?_, ?_, ?_, ?_⟩
  · intro fs l pre path hd hr hfs
    unfold processListingLine
    rw [if_neg hd, hr]
    show parse_uv_receipt (fs _) = _
    rw [hfs]
    rfl
  · intro fs lines h
    induction lines with
    | nil => rfl
    | cons l ls ih =>
      have hok := h l (List.mem_cons_self l ls)
      have ihok := ih (fun x hx => h x (List.mem_cons_of_mem l hx))
      unfold toolsOfLines
      cases hp : processListingLine fs l with
      | error e => rw [hp] at hok; cases hok
      | ok r =>
        cases r with
        | none =>
          rw [ihok]
          simp [List.filterMap_cons, lineToolOpt, hp]
        | some t =>
          rw [ihok]
          simp [List.filterMap_cons, lineToolOpt, hp]
  · intro fs l pre path hd hr hfs
    unfold processListingLine
    rw [if_neg hd, hr]
    show parse_uv_receipt (fs _) = _
    rw [hfs]
    rfl
  · intro fs lines h
    induction lines with
    | nil =>
      obtain ⟨l, hl, _⟩ := h
      cases hl
    | cons l ls ih =>
      obtain ⟨x, hx, hxf⟩ := h
      unfold toolsOfLines
      cases hp : processListingLine fs l with
      | error e => exact ⟨e, rfl⟩
      | ok r =>
        have hxl : x ∈ ls := by
          rcases List.mem_cons.mp hx with h1 | h1
          · subst h1; rw [hp] at hxf; cases hxf
          · exact h1
        obtain ⟨e, he⟩ := ih ⟨x, hxl, hxf⟩
        cases r with
        | none => exact ⟨e, by rw [he]⟩
        | some t => exact ⟨e, by rw [he]⟩

theorem c7_witness :
    (processListingLine (fun _ => none) "a 1.0 (/a)".data = .ok none) ∧
    (toolsOfLines (fun _ => none)
      ["a 1.0 (/a)".data, "b 2.0 (/b)".data] = .ok []) ∧
    (processListingLine (fun _ => some .malformed) "a 1.0 (/a)".data =
      .error .tomlErr) ∧
    (∃ e, toolsOfLines (fun _ => some .malformed)
      ["a 1.0 (/a)".data] = .error e) := by
  refine ⟨?_, ?_, ?_, ?_⟩
  · exact c7_receipt_handling.1 (fun _ => none) "a 1.0 (/a)".data
      "a 1.0".data "(/a)".data (by decide) (by decide) rfl
  · have := c7_receipt_handling.2.1 (fun _ => none)
      ["a 1.0 (/a)".data, "b 2.0 (/b)".data] (by decide)
    rw [this]
    rfl
  · exact c7_receipt_handling.2.2.1 (fun _ => some .malformed)
      "a 1.0 (/a)".data "a 1.0".data "(/a)".data (by decide) (by decide) rfl
  · exact c7_receipt_handling.2.2.2 (fun _ => some .malformed)
      ["a 1.0 (/a)".data] ⟨"a 1.0 (/a)".data, by decide, by decide⟩

/-! ## Sync-trace lemmas -/

theorem runRemovals_dry (runOk : List String → Bool) (verbose : Bool) :
    ∀ names : List (Option String), (∀ n ∈ names, n ≠ none) →
      runRemovals runOk true verbose names =
        (names.map (fun n => Event.printed
          ("Would run: " ++ mkJoin ' ' ["uv", "tool", "uninstall", fmtPyOpt n])),
         none) := by
  intro names h
  induction names with
  | nil => rfl
  | cons n rest ih =>
    cases n with
    | none => exact absurd rfl (h none (List.mem_cons_self _ _))
    | some s =>
      unfold runRemovals
      rw [ih (fun x hx => h x (List.mem_cons_of_mem _ hx))]
      rfl

theorem runRemovals_ok (runOk : List String → Bool) (verbose : Bool)
    (hok : ∀ cmd, runOk cmd = true) :
    ∀ names : List (Option String), (∀ n ∈ names, n ≠ none) →
      runRemovals runOk false verbose names =
        ((names.map (fun n =>
          (if verbose then
            [Event.debugged ("Uninstalling: " ++ fmtPyOpt n)] else []) ++
          [Event.ran ["uv", "tool", "uninstall", fmtPyOpt n]])).flatten,
         none) := by
  intro names h
  induction names with
  | nil => rfl
  | cons n rest ih =>
    cases n with
    | none => exact absurd rfl (h none (List.mem_cons_self _ _))
    | some s =>
      unfold runRemovals
      rw [ih (fun x hx => h x (List.mem_cons_of_mem _ hx))]
      simp [hok, fmtPyOpt]

theorem runRemovals_events (runOk : List String → Bool)
    (dry_run verbose : Bool) :
    ∀ (names : List (Option String)) (e : Event),
      e ∈ (runRemovals runOk dry_run verbose names).1 →
      (∃ m, e = .printed m) ∨ (∃ m, e = .debugged m) ∨
      (∃ n, e = .ran ["uv", "tool", "uninstall", n]) := by
  intro names
  induction names with
  | nil => intro e h; cases h
  | cons n rest ih =>
    intro e h
    cases n with
    | none => cases h
    | some s =>
      unfold runRemovals at h
      by_cases hd : dry_run = true
      · rw [if_pos hd] at h
        rcases List.mem_cons.mp h with h1 | h1
        · exact Or.inl ⟨_, h1⟩
        · exact ih e h1
      · rw [if_neg hd] at h
        by_cases hr : runOk ["uv", "tool", "uninstall", s] = true
        · rw [if_pos hr] at h
          rcases List.mem_append.mp h with h1 | h1
          · by_cases hv : verbose = true
            · rw [if_pos hv] at h1
              rcases List.mem_cons.mp h1 with h2 | h2
              · exact Or.inr (Or.inl ⟨_, h2⟩)
              · cases h2
            · rw [if_neg hv] at h1; cases h1
          · rcases List.mem_cons.mp h1 with h2 | h2
            · exact Or.inr (Or.inr ⟨s, h2⟩)
            · exact ih e h2
        · rw [if_neg hr] at h
          by_cases hv : verbose = true
          · rw [if_pos hv] at h
            rcases List.mem_cons.mp h with h2 | h2
            · exact Or.inr (Or.inl ⟨_, h2⟩)
            · cases h2
          · rw [if_neg hv] at h; cases h

theorem runInstalls_dry_quiet (runOk : List String → Bool)
    (force : Bool) (installed : List Tool) :
    ∀ ts : List Tool,
      runInstalls runOk true false force installed ts =
        (ts.filterMap (fun t =>
          if skipTool installed force t then none
          else some (Event.printed ("Would run: " ++
            mkJoin ' ' (["uv", "tool", "install"] ++ t.install_command force)))),
         none) := by
  intro ts
  induction ts with
  | nil => rfl
  | cons t rest ih =>
    unfold runInstalls
    by_cases hs : skipTool installed force t
    · rw [if_pos hs, ih]
      simp [List.filterMap_cons, hs]
    · rw [if_neg hs, ih]
      simp [List.filterMap_cons, hs, installStep]

theorem runInstalls_events (runOk : List String → Bool)
    (dry_run verbose force : Bool) (installed : List Tool) :
    ∀ (ts : List Tool) (e : Event),
      e ∈ (runInstalls runOk dry_run verbose force installed ts).1 →
      (∃ m, e = .printed m) ∨ (∃ m, e = .debugged m) ∨
      (∃ rest, e = .ran (["uv", "tool", "install"] ++ rest)) := by
  intro ts
  induction ts with
  | nil => intro e h; cases h
  | cons t rest ih =>
    intro e h
    unfold runInstalls at h
    by_cases hs : skipTool installed force t
    · rw [if_pos hs] at h
      rcases List.mem_append.mp h with h1 | h1
      · by_cases hv : verbose = true
        · rw [if_pos hv] at h1
          rcases List.mem_cons.mp h1 with h2 | h2
          · exact Or.inr (Or.inl ⟨_, h2⟩)
          · cases h2
        · rw [if_neg hv] at h1; cases h1
      · exact ih e h1
    · rw [if_neg hs] at h
      have hstep : ∀ e, e ∈ (installStep runOk dry_run verbose force t).1 →
          (∃ m, e = .printed m) ∨ (∃ m, e = .debugged m) ∨
          (∃ rest, e = .ran (["uv", "tool", "install"] ++ rest)) := by
        intro e h
        unfold installStep at h
        by_cases hd : dry_run = true
        · rw [if_pos hd] at h
          rcases List.mem_cons.mp h with h2 | h2
          · exact Or.inl ⟨_, h2⟩
          · cases h2
        · rw [if_neg hd] at h
          by_cases hr : runOk (["uv", "tool", "install"] ++
              t.install_command force) = true
          · rw [if_pos hr] at h
            rcases List.mem_append.mp h with h1 | h1
            · by_cases hv : verbose = true
              · rw [if_pos hv] at h1
                rcases List.mem_cons.mp h1 with h2 | h2
                · exact Or.inr (Or.inl ⟨_, h2⟩)
                · cases h2
              · rw [if_neg hv] at h1; cases h1
            · rcases List.mem_cons.mp h1 with h2 | h2
              · exact Or.inr (Or.inr ⟨_, h2⟩)
              · cases h2
          · rw [if_neg hr] at h
            by_cases hv : verbose = true
            · rw [if_pos hv] at h
              rcases List.mem_cons.mp h with h2 | h2
              · exact Or.inr (Or.inl ⟨_, h2⟩)
              · cases h2
            · rw [if_neg hv] at h; cases h
      cases hi : installStep runOk dry_run verbose force t with
      | mk evs₀ out₀ =>
        rw [hi] at h
        cases out₀ with
        | some err =>
          simp only [] at h
          exact hstep e (by rw [hi]; exact h)
        | none =>
          simp only [] at h
          rcases List.mem_append.mp h with h1 | h1
          · exact hstep e (by rw [hi]; exact h1)
          · exact ih e h1

theorem removalNames_spec (installed uvfile_tools : List Tool)
    (uninstall strict : Bool) (n : Option String) :
    n ∈ removalNames installed uvfile_tools uninstall strict ↔
      ((strict || uninstall) = true ∧
       n ∈ installed.map (fun t => t.primary.name) ∧
       n ∉ uvfile_tools.map (fun t => t.primary.name)) := by
  unfold removalNames
  by_cases h : (strict || uninstall) = true
  · rw [if_pos h]
    simp [List.mem_filter, List.mem_dedup, h]
  · rw [if_neg h]
    simp [h]

theorem removalNames_ne_none {installed uvfile_tools : List Tool}
    {uninstall strict : Bool}
    (hnames : ∀ t ∈ installed, t.primary.name ≠ none) :
    ∀ n ∈ removalNames installed uvfile_tools uninstall strict, n ≠ none := by
  intro n hn
  have h1 := ((removalNames_spec installed uvfile_tools uninstall strict n).mp
    hn).2.1
  obtain ⟨t, ht, he⟩ := List.mem_map.mp h1
  rw [← he]
  exact hnames t ht

/-! ## Claims C5, C8, C9, C10 -/

/-- C5 (confirmed): with all commands succeeding, the set of names the sync
run uninstalls is exactly `names(installed) - names(declared)` when the
uninstall or strict flag is set, and empty otherwise. -/
theorem c5_removal_plan (reinstall uninstall strict verbose : Bool)
    (env : SyncEnv) (I D : List Tool)
    (hI : get_installed_tools env.listing env.fs = .ok I)
    (hD : collect_tool_metadata env.uvfile = .ok D)
    (hnames : ∀ t ∈ I, t.primary.name ≠ none)
    (hok : ∀ cmd, env.runOk cmd = true) (n : String) :
    Event.ran ["uv", "tool", "uninstall", n] ∈
      (install_from_uvfile reinstall uninstall strict false verbose env).1 ↔
    ((uninstall || strict) = true ∧
     some n ∈ I.map (fun t => t.primary.name) ∧
     some n ∉ D.map (fun t => t.primary.name)) := by
  have hrem := runRemovals_ok env.runOk verbose hok
    (removalNames I D uninstall strict) (removalNames_ne_none hnames)
  simp only [install_from_uvfile, hI, hD, hrem]
  constructor
  · intro h
    rcases List.mem_cons.mp h with h1 | h1
    · exact absurd h1 (by simp [listCmd])
    · rcases List.mem_append.mp h1 with h2 | h2
      · obtain ⟨l, hl, hel⟩ := List.mem_flatten.mp h2
        obtain ⟨n', hn', hln⟩ := List.mem_map.mp hl
        rw [← hln] at hel
        rcases List.mem_append.mp hel with h3 | h3
        · by_cases hv : verbose = true
          · rw [if_pos hv] at h3
            rcases List.mem_cons.mp h3 with h4 | h4
            · cases h4
            · cases h4
          · rw [if_neg hv] at h3; cases h3
        · rcases List.mem_cons.mp h3 with h4 | h4
          · have hne := removalNames_ne_none hnames n' hn'
            cases n' with
            | none => exact absurd rfl hne
            | some s =>
              have h5 : n = s := by
                injection h4 with h6
                simp [fmtPyOpt] at h6
                exact h6
              subst h5
              have := (removalNames_spec I D uninstall strict (some n)).mp hn'
              exact ⟨by rw [Bool.or_comm]; exact this.1, this.2.1, this.2.2⟩
          · cases h4
      · rcases runInstalls_events env.runOk false verbose (reinstall || strict)
          I D _ h2 with ⟨m, hm⟩ | ⟨m, hm⟩ | ⟨rest, hm⟩
        · exact absurd hm (by simp)
        · exact absurd hm (by simp)
        · exact absurd hm (by simp)
  · intro ⟨hflag, hmem, hnot⟩
    have hn' : (some n : Option String) ∈
        removalNames I D uninstall strict :=
      (removalNames_spec I D uninstall strict (some n)).mpr
        ⟨by rw [Bool.or_comm]; exact hflag, hmem, hnot⟩
    apply List.mem_cons_of_mem
    apply List.mem_append_left
    apply List.mem_flatten.mpr
    refine ⟨(if verbose then
      [Event.debugged ("Uninstalling: " ++ fmtPyOpt (some n))] else []) ++
      [Event.ran ["uv", "tool", "uninstall", fmtPyOpt (some n)]],
      List.mem_map_of_mem _ hn', ?_⟩
    exact List.mem_append_right _ (List.mem_cons_self _ _)

theorem c5_witness :
    let fs : ReceiptFs := fun p =>
      if p = "/x/uv-receipt.toml" then
        some (.wellFormed [{ name := some "x", specifier := some "==1" }] none)
      else if p = "/y/uv-receipt.toml" then
        some (.wellFormed [{ name := some "y", specifier := some "==1" }] none)
      else none
    let env : SyncEnv :=
      ⟨.ok "x 1.0 (/x)\ny 1.0 (/y)", fs, some "x==1".data, fun _ => true⟩
    Event.ran ["uv", "tool", "uninstall", "y"] ∈
      (install_from_uvfile false true false false false env).1 ∧
    Event.ran ["uv", "tool", "uninstall", "x"] ∉
      (install_from_uvfile false true false false false env).1 := by
  intro fs env
  constructor
  · exact (c5_removal_plan false true false false env
      [{ primary := { name := some "x", version := some "==1" },
         additional := [], python_version := none },
       { primary := { name := some "y", version := some "==1" },
         additional := [], python_version := none }]
      [{ primary := { name := some "x", version := some "==1" },
         additional := [], python_version := none }]
      rfl rfl (by decide) (fun _ => rfl) "y").mpr
      ⟨rfl, by decide, by decide⟩
  · intro h
    have := (c5_removal_plan false true false false env
      [{ primary := { name := some "x", version := some "==1" },
         additional := [], python_version := none },
       { primary := { name := some "y", version := some "==1" },
         additional := [], python_version := none }]
      [{ primary := { name := some "x", version := some "==1" },
         additional := [], python_version := none }]
      rfl rfl (by decide) (fun _ => rfl) "x").mp h
    exact absurd this.2.2 (by decide)

/-- C9 (counterexample): even with the dry-run flag set, the sync operation
still executes the listing invocation `uv tool list --show-paths`, and its
non-zero exit raises CalledProcessError (the spec's ExternalProcessError).
"Never raises an ExternalProcessError" is false. -/
theorem c9_counterexample :
    install_from_uvfile false false false true false
      ⟨.error (), fun _ => none, none, fun _ => true⟩ =
      ([.ran listCmd], some (.procErr listCmd)) := rfl

/-- The dry-run, non-verbose trace: the listing invocation followed by the
planned command printouts; no exception. -/
theorem sync_dry_quiet_trace (reinstall uninstall strict : Bool)
    (env : SyncEnv) (I D : List Tool)
    (hI : get_installed_tools env.listing env.fs = .ok I)
    (hD : collect_tool_metadata env.uvfile = .ok D)
    (hnames : ∀ t ∈ I, t.primary.name ≠ none) :
    install_from_uvfile reinstall uninstall strict true false env =
      (.ran listCmd ::
        ((removalNames I D uninstall strict).map (fun n => Event.printed
          ("Would run: " ++
            mkJoin ' ' ["uv", "tool", "uninstall", fmtPyOpt n])) ++
         D.filterMap (fun t =>
          if skipTool I (reinstall || strict) t then none
          else some (Event.printed ("Would run: " ++ mkJoin ' '
            (["uv", "tool", "install"] ++
              t.install_command (reinstall || strict)))))),
       none) := by
  have hrem := runRemovals_dry env.runOk false
    (removalNames I D uninstall strict) (removalNames_ne_none hnames)
  have hins := runInstalls_dry_quiet env.runOk (reinstall || strict) I D
  simp only [install_from_uvfile, hI, hD, hrem, hins, List.cons_append]

/-- C9 (amended): with dry-run set (and verbose off), once the listing and
manifest reads succeed the run prints exactly the planned uninstall and
install commands, performs no install/uninstall invocation (the only
`ran` event is the listing), and raises nothing; but the listing
invocation itself still executes and its failure raises an
ExternalProcessError even in dry-run. -/
theorem c9_dry_run_trace (reinstall uninstall strict : Bool)
    (env : SyncEnv) (I D : List Tool)
    (hI : get_installed_tools env.listing env.fs = .ok I)
    (hD : collect_tool_metadata env.uvfile = .ok D)
    (hnames : ∀ t ∈ I, t.primary.name ≠ none) :
    install_from_uvfile reinstall uninstall strict true false env =
      (.ran listCmd ::
        ((removalNames I D uninstall strict).map (fun n => Event.printed
          ("Would run: " ++
            mkJoin ' ' ["uv", "tool", "uninstall", fmtPyOpt n])) ++
         D.filterMap (fun t =>
          if skipTool I (reinstall || strict) t then none
          else some (Event.printed ("Would run: " ++ mkJoin ' '
            (["uv", "tool", "install"] ++
              t.install_command (reinstall || strict)))))),
       none) :=
  sync_dry_quiet_trace reinstall uninstall strict env I D hI hD hnames

theorem c9_witness :
    let fs : ReceiptFs := fun p =>
      if p = "/x/uv-receipt.toml" then
        some (.wellFormed [{ name := some "x", specifier := some "==1" }] none)
      else none
    let env : SyncEnv :=
      ⟨.ok "x 1.0 (/x)", fs, some "ruff==2".data, fun _ => false⟩
    install_from_uvfile false true false true false env =
      (.ran listCmd ::
        [Event.printed "Would run: uv tool uninstall x",
         Event.printed "Would run: uv tool install ruff==2"], none) := by
  intro fs env
  have h := c9_dry_run_trace false true false env
    [{ primary := { name := some "x", version := some "==1" },
       additional := [], python_version := none }]
    [{ primary := { name := some "ruff", version := some "==2" },
       additional := [], python_version := none }]
    rfl rfl (by decide)
  rw [h]
  rfl

/-- C10 (confirmed): the sync operation never writes any file — in
particular it never writes or modifies the manifest — for every flag
combination and every environment; only `write_uvfile` (the init
lifecycle) writes, and it writes exactly the manifest text. -/
theorem c10_sync_never_writes :
    (∀ (reinstall uninstall strict dry_run verbose : Bool) (env : SyncEnv),
      ((install_from_uvfile reinstall uninstall strict dry_run verbose
        env).1).all (fun e => !e.isWriteFile) = true) ∧
    (∀ (ts : List Tool) (path : String),
      write_uvfile ts path =
        [.wroteFile path (String.mk (uvfileText ts))]) := by
  constructor
  · intro reinstall uninstall strict dry_run verbose env
    rw [List.all_eq_true]
    intro e he
    unfold install_from_uvfile at he
    cases hI : get_installed_tools env.listing env.fs with
    | error err =>
      rw [hI] at he
      simp only [List.mem_singleton] at he
      subst he; rfl
    | ok I =>
      rw [hI] at he
      cases hD : collect_tool_metadata env.uvfile with
      | error err =>
        rw [hD] at he
        simp only [List.mem_singleton] at he
        subst he; rfl
      | ok D =>
        rw [hD] at he
        simp only [] at he
        cases hr : runRemovals env.runOk dry_run verbose
            (removalNames I D uninstall strict) with
        | mk evs₁ out₁ =>
          rw [hr] at he
          have hremev : ∀ x ∈ evs₁, (!x.isWriteFile) = true := by
            intro x hx
            have hx' : x ∈ (runRemovals env.runOk dry_run verbose
                (removalNames I D uninstall strict)).1 := by
              rw [hr]; exact hx
            rcases runRemovals_events env.runOk dry_run verbose _ x hx' with
              ⟨m, hm⟩ | ⟨m, hm⟩ | ⟨nn, hm⟩ <;> (subst hm; rfl)
          cases out₁ with
          | some err =>
            simp only [] at he
            rcases List.mem_cons.mp he with h1 | h1
            · subst h1; rfl
            · exact hremev e h1
          | none =>
            simp only [] at he
            cases hi : runInstalls env.runOk dry_run verbose
                (reinstall || strict) I D with
            | mk evs₂ out₂ =>
              rw [hi] at he
              simp only [] at he
              rcases List.mem_cons.mp he with h1 | h1
              · subst h1; rfl
              · rcases List.mem_append.mp h1 with h2 | h2
                · exact hremev e h2
                · have hx' : e ∈ (runInstalls env.runOk dry_run verbose
                      (reinstall || strict) I D).1 := by
                    rw [hi]; exact h2
                  rcases runInstalls_events env.runOk dry_run verbose _ I D e
                    hx' with ⟨m, hm⟩ | ⟨m, hm⟩ | ⟨rest, hm⟩ <;> (subst hm; rfl)
  · intro ts path
    rfl

/-- C8 (counterexample): nothing in the code detects duplicate primary
names — there is no AmbiguousStateError.  With the same tool installed
twice under the name `x` (versions 1 and 2) and `x==2` declared, the run
completes without error in both listing orders, and its behavior depends
on which duplicate comes first: when `x==1` is listed first the declared
tool is (re)installed, when `x==2` is listed first it is silently skipped. -/
theorem c8_counterexample :
    (install_from_uvfile false false false true false
      ⟨.ok "x 1.0 (/p1)\nx 2.0 (/p2)",
       fun p =>
         if p = "/p1/uv-receipt.toml" then
           some (.wellFormed [{ name := some "x", specifier := some "==1" }]
             none)
         else if p = "/p2/uv-receipt.toml" then
           some (.wellFormed [{ name := some "x", specifier := some "==2" }]
             none)
         else none,
       some "x==2".data, fun _ => true⟩ =
      ([.ran listCmd, .printed "Would run: uv tool install x==2"], none)) ∧
    (install_from_uvfile false false false true false
      ⟨.ok "x 2.0 (/p2)\nx 1.0 (/p1)",
       fun p =>
         if p = "/p1/uv-receipt.toml" then
           some (.wellFormed [{ name := some "x", specifier := some "==1" }]
             none)
         else if p = "/p2/uv-receipt.toml" then
           some (.wellFormed [{ name := some "x", specifier := some "==2" }]
             none)
         else none,
       some "x==2".data, fun _ => true⟩ =
      ([.ran listCmd], none)) := ⟨rfl, rfl⟩

/-- C8 (amended): duplicate primary names are not detected.  The
comparison uses the FIRST same-named installed tool (`next(...)` over the
listing order) and ignores later duplicates, and the run completes
normally (no error is raised) for every declared/installed collection,
duplicates included, whenever the listing and manifest reads succeed. -/
theorem c8_first_match_no_error :
    (∀ (force : Bool) (t u : Tool) (rest : List Tool),
      (u.primary.name == t.primary.name) = true →
      skipTool (u :: rest) force t = (toolEq t u && !force)) ∧
    (∀ (reinstall uninstall strict : Bool) (env : SyncEnv) (I D : List Tool),
      get_installed_tools env.listing env.fs = .ok I →
      collect_tool_metadata env.uvfile = .ok D →
      (∀ t ∈ I, t.primary.name ≠ none) →
      (install_from_uvfile reinstall uninstall strict true false env).2 =
        none) := by
  constructor
  · intro force t u rest hname
    unfold skipTool
    rw [@List.find?_cons_of_pos Tool
      (fun x => x.primary.name == t.primary.name) u rest hname]
  · intro reinstall uninstall strict env I D hI hD hnames
    rw [sync_dry_quiet_trace reinstall uninstall strict env I D hI hD hnames]

theorem c8_witness :
    (skipTool
      [{ primary := { name := some "x", version := some "==1" },
         additional := [], python_version := none },
       { primary := { name := some "x", version := some "==2" },
         additional := [], python_version := none }] false
      { primary := { name := some "x", version := some "==2" },
        additional := [], python_version := none } =
      (toolEq
        { primary := { name := some "x", version := some "==2" },
          additional := [], python_version := none }
        { primary := { name := some "x", version := some "==1" },
          additional := [], python_version := none } && !false)) ∧
    ((install_from_uvfile false false false true false
      ⟨.ok "x 1.0 (/p1)\nx 2.0 (/p2)",
       fun p =>
         if p = "/p1/uv-receipt.toml" then
           some (.wellFormed [{ name := some "x", specifier := some "==1" }]
             none)
         else if p = "/p2/uv-receipt.toml" then
           some (.wellFormed [{ name := some "x", specifier := some "==2" }]
             none)
         else none,
       some "x==2".data, fun _ => true⟩).2 = none) := by
  constructor
  · exact c8_first_match_no_error.1 false
      { primary := { name := some "x", version := some "==2" },
        additional := [], python_version := none }
      { primary := { name := some "x", version := some "==1" },
        additional := [], python_version := none }
      [{ primary := { name := some "x", version := some "==2" },
         additional := [], python_version := none }] (by decide)
  · exact c8_first_match_no_error.2 false false false _
      [{ primary := { name := some "x", version := some "==1" },
         additional := [], python_version := none },
       { primary := { name := some "x", version := some "==2" },
         additional := [], python_version := none }]
      [{ primary := { name := some "x", version := some "==2" },
         additional := [], python_version := none }]
      rfl rfl (by decide)

/-! ## Claim C4: encode/decode round-trip.  Basic string lemmas. -/

theorem string_data_append (a b : String) : (a ++ b).data = a.data ++ b.data :=
  rfl

theorem string_mk_data (s : String) : String.mk s.data = s := by
  cases s; rfl

theorem mk_comp_data (l : List String) : (l.map String.data).map String.mk = l := by
  induction l with
  | nil => rfl
  | cons a as ih => simp [ih, string_mk_data]

theorem takeWhile_append_of_all {α : Type} {p : α → Bool} :
    ∀ {xs ys : List α}, (∀ c ∈ xs, p c = true) →
      (xs ++ ys).takeWhile p = xs ++ ys.takeWhile p := by
  intro xs
  induction xs with
  | nil => intro ys _; rfl
  | cons x xs ih =>
    intro ys h
    have hx : p x = true := h x (List.mem_cons_self _ _)
    simp only [List.cons_append, List.takeWhile_cons, hx, if_true]
    rw [ih (fun c hc => h c (List.mem_cons_of_mem _ hc))]

theorem dropWhile_append_of_all {α : Type} {p : α → Bool} :
    ∀ {xs ys : List α}, (∀ c ∈ xs, p c = true) →
      (xs ++ ys).dropWhile p = ys.dropWhile p := by
  intro xs
  induction xs with
  | nil => intro ys _; rfl
  | cons x xs ih =>
    intro ys h
    have hx : p x = true := h x (List.mem_cons_self _ _)
    simp only [List.cons_append, List.dropWhile_cons, hx, if_true]
    exact ih (fun c hc => h c (List.mem_cons_of_mem _ hc))

theorem takeWhile_append_head_fail {α : Type} {p : α → Bool} {xs ys : List α}
    {y : α} (hall : ∀ c ∈ xs, p c = true) (hy : p y = false) :
    (xs ++ y :: ys).takeWhile p = xs := by
  rw [takeWhile_append_of_all hall]
  simp [List.takeWhile_cons, hy]

theorem dropWhile_append_head_fail {α : Type} {p : α → Bool} {xs ys : List α}
    {y : α} (hall : ∀ c ∈ xs, p c = true) (hy : p y = false) :
    (xs ++ y :: ys).dropWhile p = y :: ys := by
  rw [dropWhile_append_of_all hall]
  simp [List.dropWhile_cons, hy]

theorem pyWs_cases {c : Char} (h : isPyWs c = true) :
    c = ' ' ∨ c = '\t' ∨ c = '\n' ∨ c = '\r' ∨ c = '\x0b' ∨ c = '\x0c' := by
  simp only [isPyWs, Bool.or_eq_true, decide_eq_true_eq] at h
  tauto

theorem shlexWs_pyWs {c : Char} (h : isShlexWs c = true) : isPyWs c = true := by
  simp only [isShlexWs, Bool.or_eq_true, decide_eq_true_eq] at h
  rcases h with ((rfl | rfl) | rfl) | rfl <;> rfl

theorem identCh_not_pyWs {c : Char} (h : identCh c = true) :
    isPyWs c = false := by
  cases hh : isPyWs c
  · rfl
  · exfalso
    rcases pyWs_cases hh with rfl | rfl | rfl | rfl | rfl | rfl <;>
      exact absurd h (by decide)

theorem urlCh_not_pyWs {c : Char} (h : 33 ≤ c.toNat) : isPyWs c = false := by
  cases hh : isPyWs c
  · rfl
  · exfalso
    rcases pyWs_cases hh with rfl | rfl | rfl | rfl | rfl | rfl <;>
      exact absurd h (by decide)

theorem versionCh_not_pyWs {c : Char} (h : versionCh c = true) :
    isPyWs c = false := by
  cases hh : isPyWs c
  · rfl
  · exfalso
    rcases pyWs_cases hh with rfl | rfl | rfl | rfl | rfl | rfl <;>
      exact absurd h (by decide)

theorem identCh_of_alnum {c : Char} (h : c.isAlphanum = true) :
    identCh c = true := by
  simp [identCh, h]

theorem not_shlexWs_of_not_pyWs {c : Char} (h : isPyWs c = false) :
    isShlexWs c = false := by
  cases hh : isShlexWs c
  · rfl
  · rw [shlexWs_pyWs hh] at h; cases h

/-! ## Tokenizer and line-splitter inversion -/

theorem intercalate_cons_cons {α : Type} (s x y : List α) (zs : List (List α)) :
    List.intercalate s (x :: y :: zs) = x ++ s ++ List.intercalate s (y :: zs) := by
  simp [List.intercalate, List.intersperse]

theorem intercalate_singleton {α : Type} (s x : List α) :
    List.intercalate s [x] = x := by
  simp [List.intercalate, List.intersperse]

theorem shlexGo_chunk :
    ∀ (t : List Char), (∀ c ∈ t, isShlexWs c = false) →
      ∀ (acc rest : List Char),
        shlexSplit.go acc (t ++ rest) = shlexSplit.go (t.reverse ++ acc) rest := by
  intro t
  induction t with
  | nil => intro _ acc rest; rfl
  | cons c cs ih =>
    intro h acc rest
    have hc : isShlexWs c = false := h c (List.mem_cons_self _ _)
    show shlexSplit.go acc (c :: (cs ++ rest)) = _
    rw [shlexSplit.go]
    rw [hc]
    simp only [Bool.false_eq_true, if_false]
    rw [ih (fun x hx => h x (List.mem_cons_of_mem _ hx)) (c :: acc) rest]
    simp

theorem shlexGo_nil (acc : List Char) :
    shlexSplit.go acc [] = if acc.isEmpty then [] else [acc.reverse] := rfl

theorem shlexSplit_intercalate :
    ∀ ts : List (List Char),
      (∀ t ∈ ts, t ≠ [] ∧ ∀ c ∈ t, isShlexWs c = false) →
      shlexSplit (List.intercalate [' '] ts) = ts := by
  intro ts
  induction ts with
  | nil => intro _; rfl
  | cons t ts ih =>
    intro h
    obtain ⟨ht, hws⟩ := h t (List.mem_cons_self _ _)
    cases ts with
    | nil =>
      rw [intercalate_singleton]
      show shlexSplit.go [] t = [t]
      have := shlexGo_chunk t hws [] []
      rw [List.append_nil] at this
      rw [this, List.append_nil, shlexGo_nil]
      have : t.reverse.isEmpty = false := by
        cases ht2 : t.reverse with
        | nil => exact absurd (List.reverse_eq_nil_iff.mp ht2) ht
        | cons x xs => rfl
      rw [this]
      simp
    | cons t' ts' =>
      rw [intercalate_cons_cons, List.append_assoc]
      have hrest := ih (fun x hx => h x (List.mem_cons_of_mem _ hx))
      show shlexSplit.go [] (t ++ ([' '] ++ List.intercalate [' '] (t' :: ts'))) = _
      rw [shlexGo_chunk t hws [] _, List.append_nil]
      show shlexSplit.go t.reverse (' ' :: List.intercalate [' '] (t' :: ts')) = _
      rw [shlexSplit.go]
      have hsp : isShlexWs ' ' = true := rfl
      rw [hsp]
      have : t.reverse.isEmpty = false := by
        cases ht2 : t.reverse with
        | nil => exact absurd (List.reverse_eq_nil_iff.mp ht2) ht
        | cons x xs => rfl
      simp only [if_true, this, Bool.false_eq_true, if_false]
      rw [List.reverse_reverse]
      exact congrArg (t :: ·) hrest

theorem linesGo_chunk :
    ∀ (t : List Char), (∀ c ∈ t, c ≠ '\n') →
      ∀ (acc rest : List Char),
        pySplitlines.go acc (t ++ rest) = pySplitlines.go (t.reverse ++ acc) rest := by
  intro t
  induction t with
  | nil => intro _ acc rest; rfl
  | cons c cs ih =>
    intro h acc rest
    have hc : c ≠ '\n' := h c (List.mem_cons_self _ _)
    show pySplitlines.go acc (c :: (cs ++ rest)) = _
    rw [pySplitlines.go]
    rw [if_neg hc]
    rw [ih (fun x hx => h x (List.mem_cons_of_mem _ hx)) (c :: acc) rest]
    simp

theorem pySplitlines_body :
    ∀ ts : List (List Char),
      (∀ t ∈ ts, t ≠ [] ∧ ∀ c ∈ t, c ≠ '\n') →
      pySplitlines (List.intercalate ['\n'] ts) = ts := by
  intro ts
  induction ts with
  | nil => intro _; rfl
  | cons t ts ih =>
    intro h
    obtain ⟨ht, hnl⟩ := h t (List.mem_cons_self _ _)
    cases ts with
    | nil =>
      rw [intercalate_singleton]
      show pySplitlines.go [] t = [t]
      have := linesGo_chunk t hnl [] []
      rw [List.append_nil] at this
      rw [this, List.append_nil, pySplitlines.go]
      have ht2 : t.reverse.isEmpty = false := by
        cases ht3 : t.reverse with
        | nil => exact absurd (List.reverse_eq_nil_iff.mp ht3) ht
        | cons x xs => rfl
      rw [ht2]
      simp
    | cons t' ts' =>
      rw [intercalate_cons_cons, List.append_assoc]
      have hrest := ih (fun x hx => h x (List.mem_cons_of_mem _ hx))
      show pySplitlines.go [] (t ++ (['\n'] ++ List.intercalate ['\n'] (t' :: ts'))) = _
      rw [linesGo_chunk t hnl [] _, List.append_nil]
      show pySplitlines.go t.reverse ('\n' :: List.intercalate ['\n'] (t' :: ts')) = _
      rw [pySplitlines.go]
      rw [if_pos rfl, List.reverse_reverse]
      exact congrArg (t :: ·) hrest

theorem pySplitlines_file (hd body : List Char) (hhd : ∀ c ∈ hd, c ≠ '\n') :
    pySplitlines (hd ++ '\n' :: '\n' :: body) =
      hd :: [] :: pySplitlines.go [] body := by
  show pySplitlines.go [] (hd ++ '\n' :: '\n' :: body) = _
  rw [linesGo_chunk hd hhd [] _, List.append_nil]
  rw [pySplitlines.go, if_pos rfl, List.reverse_reverse]
  rw [pySplitlines.go, if_pos rfl]
  rfl

theorem commasGo_chunk :
    ∀ (t : List Char), (∀ c ∈ t, c ≠ ',') →
      ∀ (acc rest : List Char),
        splitCommas.go acc (t ++ rest) = splitCommas.go (t.reverse ++ acc) rest := by
  intro t
  induction t with
  | nil => intro _ acc rest; rfl
  | cons c cs ih =>
    intro h acc rest
    have hc : c ≠ ',' := h c (List.mem_cons_self _ _)
    show splitCommas.go acc (c :: (cs ++ rest)) = _
    rw [splitCommas.go]
    rw [if_neg hc]
    rw [ih (fun x hx => h x (List.mem_cons_of_mem _ hx)) (c :: acc) rest]
    simp

theorem splitCommas_intercalate :
    ∀ ts : List (List Char),
      (∀ t ∈ ts, t ≠ [] ∧ ∀ c ∈ t, c ≠ ',') → ts ≠ [] →
      splitCommas (List.intercalate [','] ts) = ts := by
  intro ts
  induction ts with
  | nil => intro _ h; exact absurd rfl h
  | cons t ts ih =>
    intro h _
    obtain ⟨ht, hcm⟩ := h t (List.mem_cons_self _ _)
    have hgo : ∀ l : List Char, l ≠ [] → splitCommas l = splitCommas.go [] l := by
      intro l hl
      unfold splitCommas
      rw [if_neg (by simpa using hl)]
    cases ts with
    | nil =>
      rw [intercalate_singleton, hgo t ht]
      have := commasGo_chunk t hcm [] []
      rw [List.append_nil] at this
      rw [this, List.append_nil]
      show [t.reverse.reverse] = [t]
      rw [List.reverse_reverse]
    | cons t' ts' =>
      obtain ⟨ht', _⟩ := h t' (List.mem_cons_of_mem _ (List.mem_cons_self _ _))
      have hic : List.intercalate [','] (t' :: ts') ≠ [] := by
        cases ts' with
        | nil => rw [intercalate_singleton]; exact ht'
        | cons a b =>
          rw [intercalate_cons_cons]
          cases hx : t' with
          | nil => exact absurd hx ht'
          | cons y ys => simp [hx]
      have hfull : t ++ [','] ++ List.intercalate [','] (t' :: ts') ≠ [] := by
        cases hx : t with
        | nil => exact absurd hx ht
        | cons y ys => simp [hx]
      rw [intercalate_cons_cons, hgo _ hfull]
      rw [List.append_assoc]
      rw [commasGo_chunk t hcm [] _, List.append_nil]
      show splitCommas.go t.reverse (',' :: List.intercalate [','] (t' :: ts')) = _
      rw [splitCommas.go, if_pos rfl, List.reverse_reverse]
      rw [← hgo _ hic]
      exact congrArg (t :: ·)
        (ih (fun x hx => h x (List.mem_cons_of_mem _ hx)) (by simp))

/-! ## Strip identity on well-formed lines -/

theorem dropWhile_eq_self_head {α : Type} {p : α → Bool} :
    ∀ {l : List α}, (∀ c, l.head? = some c → p c = false) →
      l.dropWhile p = l := by
  intro l h
  cases l with
  | nil => rfl
  | cons x xs =>
    have := h x rfl
    simp [List.dropWhile_cons, this]

theorem getLast?_mem' {α : Type} :
    ∀ {l : List α} {c : α}, l.getLast? = some c → c ∈ l := by
  intro l
  induction l with
  | nil => intro c h; cases h
  | cons x xs ih =>
    intro c h
    cases xs with
    | nil =>
      simp only [List.getLast?_singleton, Option.some.injEq] at h
      subst h
      exact List.mem_cons_self _ _
    | cons y ys =>
      rw [List.getLast?_cons_cons] at h
      exact List.mem_cons_of_mem _ (ih h)

theorem getLast?_append_ne_nil {α : Type} :
    ∀ (a : List α) {b : List α}, b ≠ [] →
      (a ++ b).getLast? = b.getLast? := by
  intro a
  induction a with
  | nil => intro b _; rfl
  | cons x xs ih =>
    intro b hb
    show (x :: (xs ++ b)).getLast? = _
    cases hab : xs ++ b with
    | nil =>
      rcases List.append_eq_nil.mp hab with ⟨_, h2⟩
      exact absurd h2 hb
    | cons y ys =>
      rw [List.getLast?_cons_cons]
      rw [← ih hb, hab]

theorem pyStrip_eq_self {l : List Char}
    (h1 : ∀ c, l.head? = some c → isPyWs c = false)
    (h2 : ∀ c, l.getLast? = some c → isPyWs c = false) :
    pyStrip l = l := by
  unfold pyStrip
  rw [dropWhile_eq_self_head h1]
  rw [dropWhile_eq_self_head (by
    intro c hc
    rw [List.head?_reverse] at hc
    exact h2 c hc)]
  exact List.reverse_reverse l

theorem intercalate_head?_eq {s : List Char} :
    ∀ (t : List Char) (ts : List (List Char)), t ≠ [] →
      (List.intercalate s (t :: ts)).head? = t.head? := by
  intro t ts ht
  cases ts with
  | nil => rw [intercalate_singleton]
  | cons t' ts' =>
    rw [intercalate_cons_cons, List.append_assoc]
    cases t with
    | nil => exact absurd rfl ht
    | cons c cs => rfl

theorem intercalate_getLast?_mem {s : List Char} (hs : s ≠ []) :
    ∀ (ts : List (List Char)) (t : List Char), t ∈ ts → ts ≠ [] →
      (∀ x ∈ ts, x ≠ []) →
      ∃ u ∈ ts, (List.intercalate s ts).getLast? = u.getLast? := by
  intro ts
  induction ts with
  | nil => intro t ht _ _; cases ht
  | cons a as ih =>
    intro t _ _ hne
    cases as with
    | nil =>
      refine ⟨a, List.mem_cons_self _ _, ?_⟩
      rw [intercalate_singleton]
    | cons b bs =>
      have hicne : List.intercalate s (b :: bs) ≠ [] := by
        have hb := hne b (List.mem_cons_of_mem _ (List.mem_cons_self _ _))
        have := @intercalate_head?_eq s b bs hb
        intro hnil
        rw [hnil] at this
        cases hbs : b with
        | nil => exact absurd hbs hb
        | cons y ys =>
          rw [hbs] at this
          cases this
      obtain ⟨u, hu, he⟩ := ih b (List.mem_cons_self _ _) (by simp)
        (fun x hx => hne x (List.mem_cons_of_mem _ hx))
      refine ⟨u, List.mem_cons_of_mem _ hu, ?_⟩
      rw [intercalate_cons_cons, List.append_assoc]
      rw [getLast?_append_ne_nil a (b := s ++ List.intercalate s (b :: bs)) (by
        cases hss : s with
        | nil => exact absurd hss hs
        | cons y ys => simp [hss])]
      rw [getLast?_append_ne_nil s hicne]
      exact he

/-! ## Well-formedness consequences and fragment structure -/

theorem isEmpty_false_of_ne {α : Type} {l : List α} (h : l ≠ []) :
    l.isEmpty = false := by
  cases l with
  | nil => exact absurd rfl h
  | cons x xs => rfl

theorem splitCommas_single {l : List Char} (hne : l ≠ [])
    (h : ∀ c ∈ l, c ≠ ',') : splitCommas l = [l] := by
  unfold splitCommas
  rw [isEmpty_false_of_ne hne]
  simp only [Bool.false_eq_true, if_false]
  have h2 := commasGo_chunk l h [] []
  rw [List.append_nil, List.append_nil] at h2
  rw [h2]
  show [l.reverse.reverse] = [l]
  rw [List.reverse_reverse]

theorem wfName_spec {n : String} (h : wfName n = true) :
    n.data ≠ [] ∧ (∀ c ∈ n.data, identCh c = true) ∧
    edgeOk n.data = true ∧
    (∃ c cs, n.data = c :: cs ∧ c.isAlphanum = true) := by
  unfold wfName at h
  simp only [Bool.and_eq_true, List.all_eq_true] at h
  obtain ⟨hall, hedge⟩ := h
  refine ⟨?_, hall, hedge, ?_⟩
  · intro hnil
    rw [hnil] at hedge
    exact absurd hedge (by decide)
  · cases hd : n.data with
    | nil =>
      rw [hd] at hedge
      exact absurd hedge (by decide)
    | cons c cs =>
      rw [hd] at hedge
      unfold edgeOk at hedge
      simp only [List.head?_cons, Bool.and_eq_true] at hedge
      exact ⟨c, cs, rfl, hedge.1⟩

theorem wfUrl_spec {u : String} (h : wfUrl u = true) :
    u.data ≠ [] ∧ (∀ c ∈ u.data, isPyWs c = false) := by
  unfold wfUrl at h
  simp only [Bool.and_eq_true, List.all_eq_true, decide_eq_true_eq] at h
  refine ⟨?_, ?_⟩
  · intro hnil
    rw [hnil] at h
    cases h.1
  · intro c hc
    exact urlCh_not_pyWs (h.2 c hc).1.1.1.1

theorem wfExtra_spec {e : String} (h : wfExtra e = true) :
    e.data ≠ [] ∧ (∀ c ∈ e.data, identCh c = true) ∧
    edgeOk e.data = true := by
  unfold wfExtra at h
  simp only [Bool.and_eq_true, List.all_eq_true] at h
  obtain ⟨hall, hedge⟩ := h
  refine ⟨?_, hall, hedge⟩
  intro hnil
  rw [hnil] at hedge
  exact absurd hedge (by decide)

theorem identCh_ne {c : Char} (h : identCh c = true) :
    c ≠ ']' ∧ c ≠ ',' := by
  refine ⟨?_, ?_⟩ <;> intro heq <;> subst heq <;> exact absurd h (by decide)

theorem specOps_chars :
    ∀ op ∈ specOps, op ≠ [] ∧ ∀ c ∈ op,
      isPyWs c = false ∧ identCh c = false ∧ c ≠ '@' ∧ c ≠ '[' ∧
        c ≠ ',' := by
  decide

theorem validSpec_spec {l : List Char} (h : validSpec l = true) :
    l ≠ [] ∧ (∀ c ∈ l, isPyWs c = false) ∧
    (∀ c cs, l = c :: cs → identCh c = false ∧ c ≠ '@' ∧ c ≠ '[') := by
  unfold validSpec at h
  rw [List.any_eq_true] at h
  obtain ⟨op, hop, hcond⟩ := h
  simp only [Bool.and_eq_true, beq_iff_eq] at hcond
  obtain ⟨⟨h1, h2⟩, _⟩ := hcond
  obtain ⟨hopne, hopch⟩ := specOps_chars op hop
  have hl : l = op ++ l.drop op.length := by
    conv_lhs => rw [← List.take_append_drop op.length l]
    rw [h1]
  have hdropch : ∀ c ∈ l.drop op.length, isPyWs c = false ∧
      (op = ['=', '=', '='] ∨ c ≠ ',') := by
    by_cases hop3 : op = ['=', '=', '=']
    · rw [if_pos hop3] at h2
      rw [List.all_eq_true] at h2
      intro c hc
      have hsafe := h2 c hc
      unfold specSafeCh at hsafe
      simp only [Bool.and_eq_true, Bool.not_eq_true'] at hsafe
      exact ⟨hsafe.1.1, Or.inl hop3⟩
    · rw [if_neg hop3] at h2
      rw [List.all_eq_true] at h2
      intro c hc
      have hv := h2 c hc
      refine ⟨versionCh_not_pyWs hv, Or.inr ?_⟩
      intro he
      rw [he] at hv
      exact absurd hv (by decide)
  refine ⟨?_, ?_, ?_⟩
  · intro hnil
    rw [hnil] at hl
    cases hop2 : op with
    | nil => exact absurd hop2 hopne
    | cons x xs => rw [hop2] at hl; cases hl
  · intro c hc
    rw [hl] at hc
    rcases List.mem_append.mp hc with hc | hc
    · exact (hopch c hc).1
    · exact (hdropch c hc).1
  · intro c cs hccs
    cases hop2 : op with
    | nil => exact absurd hop2 hopne
    | cons x xs =>
      rw [hop2] at hl
      rw [hccs] at hl
      have hcx : c = x := by
        have := hl
        simp only [List.cons_append, List.cons.injEq] at this
        exact this.1
      subst hcx
      have := hopch c (by rw [hop2]; exact List.mem_cons_self _ _)
      exact ⟨this.2.1, this.2.2.1, this.2.2.2.1⟩

theorem strTruthy_some_of_ne {s : String} (h : s.data ≠ []) :
    strTruthy (some s) = true := by
  show (!s.data.isEmpty) = true
  rw [isEmpty_false_of_ne h]
  rfl

theorem fragment_url {r : RequirementSpec} {n u : String}
    (hn : r.name = some n) (hu : r.url = some u) (hne : u.data ≠ []) :
    r.fragment.data = n.data ++ '@' :: u.data := by
  have ht : strTruthy r.url = true := by rw [hu]; exact strTruthy_some_of_ne hne
  unfold RequirementSpec.fragment
  rw [ht, if_pos rfl, hn, hu]
  show ((fmtPyOpt (some n) ++ "@") ++ fmtPyOpt (some u)).data = _
  rw [string_data_append, string_data_append]
  show (n.data ++ ['@']) ++ u.data = _
  rw [List.append_assoc]
  rfl

theorem fragment_registry {r : RequirementSpec} {n : String}
    (hn : r.name = some n) (hnne : n.data ≠ [])
    (hu : strTruthy r.url = false) :
    r.fragment.data = n.data ++
      ((if r.extras.isEmpty then ([] : List Char)
        else '[' :: (List.intercalate [','] (r.extras.map String.data) ++ [']'])) ++
       (if strTruthy r.version then (r.version.getD "").data else [])) := by
  unfold RequirementSpec.fragment
  rw [hu]
  simp only [Bool.false_eq_true, if_false]
  rw [hn]
  rw [strTruthy_some_of_ne hnne]
  simp only [if_true, Option.getD_some]
  rw [string_data_append, string_data_append]
  rw [List.append_assoc]
  congr 1
  congr 1
  · by_cases hx : r.extras.isEmpty
    · rw [if_pos hx, if_pos hx]
    · rw [if_neg hx, if_neg hx]
      show ((("[" ++ mkJoin ',' r.extras) ++ "]")).data = _
      rw [string_data_append, string_data_append]
      show (['['] ++ (mkJoin ',' r.extras).data) ++ [']'] = _
      rw [List.append_assoc]
      rfl
  · by_cases hv : strTruthy r.version
    · rw [if_pos hv, if_pos hv]
    · rw [if_neg hv, if_neg hv]

/-! ## Requirement-token parse inversion -/

theorem takeWhile_all {α : Type} {p : α → Bool} :
    ∀ {l : List α}, (∀ c ∈ l, p c = true) → l.takeWhile p = l := by
  intro l h
  induction l with
  | nil => rfl
  | cons x xs ih =>
    simp only [List.takeWhile_cons, h x (List.mem_cons_self _ _), if_true]
    rw [ih (fun c hc => h c (List.mem_cons_of_mem _ hc))]

theorem dropWhile_all {α : Type} {p : α → Bool} :
    ∀ {l : List α}, (∀ c ∈ l, p c = true) → l.dropWhile p = [] := by
  intro l h
  induction l with
  | nil => rfl
  | cons x xs ih =>
    simp only [List.dropWhile_cons, h x (List.mem_cons_self _ _), if_true]
    exact ih (fun c hc => h c (List.mem_cons_of_mem _ hc))

theorem mem_intercalate {α : Type} {c : α} {sep : List α} :
    ∀ {ls : List (List α)}, c ∈ List.intercalate sep ls →
      c ∈ sep ∨ ∃ l ∈ ls, c ∈ l := by
  intro ls
  induction ls with
  | nil => intro h; cases h
  | cons t ts ih =>
    intro h
    cases ts with
    | nil =>
      rw [intercalate_singleton] at h
      exact Or.inr ⟨t, List.mem_cons_self _ _, h⟩
    | cons t' ts' =>
      rw [intercalate_cons_cons] at h
      rcases List.mem_append.mp h with h1 | h1
      · rcases List.mem_append.mp h1 with h2 | h2
        · exact Or.inr ⟨t, List.mem_cons_self _ _, h2⟩
        · exact Or.inl h2
      · rcases ih h1 with h2 | ⟨l, hl, hcl⟩
        · exact Or.inl h2
        · exact Or.inr ⟨l, List.mem_cons_of_mem _ hl, hcl⟩

theorem wfReq_name {r : RequirementSpec} (h : wfReq r = true) :
    ∃ n, r.name = some n := by
  cases hn : r.name with
  | none => unfold wfReq at h; rw [hn] at h; simp at h
  | some n => exact ⟨n, rfl⟩

theorem wfReq_url_case {r : RequirementSpec} {n u : String}
    (h : wfReq r = true) (hn : r.name = some n) (hu : r.url = some u) :
    wfName n = true ∧ wfUrl u = true ∧ r.version = none ∧ r.extras = [] := by
  unfold wfReq at h
  rw [hn, hu] at h
  simp only [Bool.and_eq_true, beq_iff_eq] at h
  exact ⟨h.1, h.2.1.1, h.2.1.2, h.2.2⟩

theorem wfReq_reg_case {r : RequirementSpec} {n : String}
    (h : wfReq r = true) (hn : r.name = some n) (hu : r.url = none) :
    wfName n = true ∧ r.editable = false ∧
    (∀ e ∈ r.extras, wfExtra e = true) ∧ r.extras.dedup = r.extras ∧
    (∀ v, r.version = some v →
      validSpec v.data = true ∧ wfUrl v = true ∧
        (∀ c ∈ v.data, c ≠ ',')) := by
  unfold wfReq at h
  rw [hn, hu] at h
  simp only [Bool.and_eq_true, beq_iff_eq, Bool.not_eq_true',
    List.all_eq_true] at h
  obtain ⟨h1, ⟨⟨h2, h3⟩, h4⟩, h5⟩ := h
  refine ⟨h1, h2, h3, h4, ?_⟩
  intro v hv
  rw [hv] at h5
  simp only [Bool.and_eq_true, List.all_eq_true, Bool.not_eq_true',
    beq_eq_false_iff_ne] at h5
  exact ⟨h5.1.1, h5.1.2, h5.2⟩


theorem parseAfterExtras_inv (nm : List Char) (ex : List String)
    (version : Option String)
    (hv : ∀ v, version = some v →
      validSpec v.data = true ∧ wfUrl v = true ∧
        (∀ c ∈ v.data, c ≠ ',')) :
    parseReqAfterExtras nm ex
      (if strTruthy version then (version.getD "").data else []) =
      some ⟨String.mk nm, ex, version, none⟩ := by
  cases version with
  | none =>
    show parseReqAfterExtras nm ex [] = _
    rfl
  | some v =>
    obtain ⟨hvs, hvu, hnc⟩ := hv v rfl
    obtain ⟨hne, _⟩ := wfUrl_spec hvu
    rw [if_pos (strTruthy_some_of_ne hne)]
    simp only [Option.getD_some]
    unfold parseReqAfterExtras
    rw [isEmpty_false_of_ne hne]
    simp only [Bool.false_eq_true, if_false]
    obtain ⟨_, _, hshape⟩ := validSpec_spec hvs
    have hsplit : splitCommas v.data = [v.data] :=
      splitCommas_single hne hnc
    have hhead : ¬ (v.data.head? = some '@') := by
      cases hvd : v.data with
      | nil => exact absurd hvd hne
      | cons c cs =>
        obtain ⟨_, hat, _⟩ := hshape c cs hvd
        rw [List.head?_cons]
        intro hsome
        exact hat (Option.some.inj hsome)
    rw [if_neg hhead, hsplit]
    rw [(by simp [hvs] : ([v.data].all validSpec) = true)]
    simp only [if_true]
    have hone : mkJoin ','
        (pySorted (([v.data].map String.mk).dedup)) = v := by
      show mkJoin ',' (pySorted ([String.mk v.data].dedup)) = v
      rw [List.dedup_cons_of_not_mem (by simp), List.dedup_nil]
      show String.mk (List.intercalate [','] [v.data]) = v
      rw [intercalate_singleton, string_mk_data]
    rw [hone]

theorem parse_fragment {r : RequirementSpec} {n : String}
    (hwf : wfReq r = true) (hn : r.name = some n) :
    parseRequirementToken r.fragment.data =
      some ⟨n, r.extras, r.version, r.url⟩ := by
  cases hu : r.url with
  | some u =>
    obtain ⟨hwn, hwu, hv, hx⟩ := wfReq_url_case hwf hn hu
    obtain ⟨hune, _⟩ := wfUrl_spec hwu
    obtain ⟨hnne, hnall, hedge, _⟩ := wfName_spec hwn
    rw [fragment_url hn hu hune]
    unfold parseRequirementToken
    rw [takeWhile_append_head_fail hnall (by decide)]
    rw [dropWhile_append_head_fail hnall (by decide)]
    rw [hedge]
    simp only [if_true]
    unfold parseReqTail
    rw [List.head?_cons, if_neg (by decide)]
    unfold parseReqAfterExtras
    simp only [List.isEmpty_cons, Bool.false_eq_true, if_false,
      List.head?_cons, List.tail_cons]
    simp only [if_true]
    rw [isEmpty_false_of_ne hune]
    simp only [Bool.false_eq_true, if_false]
    rw [string_mk_data, string_mk_data, hv, hx]
  | none =>
    obtain ⟨hwn, hed, hexall, hexdd, hver⟩ := wfReq_reg_case hwf hn hu
    obtain ⟨hnne, hnall, hedge, _⟩ := wfName_spec hwn
    have hut : strTruthy r.url = false := by rw [hu]; rfl
    rw [fragment_registry hn hnne hut]
    by_cases hxe : r.extras.isEmpty = true
    · have hxnil : r.extras = [] := by
        cases hxx : r.extras with
        | nil => rfl
        | cons a as => rw [hxx] at hxe; cases hxe
      rw [if_pos hxe]
      simp only [List.nil_append]
      cases hvv : r.version with
      | none =>
        show parseRequirementToken (n.data ++ []) = _
        rw [List.append_nil]
        unfold parseRequirementToken
        rw [takeWhile_all hnall, dropWhile_all hnall, hedge]
        simp only [if_true]
        unfold parseReqTail
        rw [if_neg (by decide)]
        unfold parseReqAfterExtras
        rw [if_pos (by decide), string_mk_data, hxnil]
      | some v =>
        obtain ⟨hvs, hvu, hnc⟩ := hver v hvv
        obtain ⟨hne, _⟩ := wfUrl_spec hvu
        obtain ⟨_, _, hshape⟩ := validSpec_spec hvs
        have hsplit : splitCommas v.data = [v.data] :=
          splitCommas_single hne hnc
        rw [if_pos (strTruthy_some_of_ne hne)]
        simp only [Option.getD_some]
        cases hvd : v.data with
        | nil => exact absurd hvd hne
        | cons c cs =>
          obtain ⟨hident, hat, hbr⟩ := hshape c cs hvd
          unfold parseRequirementToken
          rw [takeWhile_append_head_fail hnall hident]
          rw [dropWhile_append_head_fail hnall hident]
          rw [hedge]
          simp only [if_true]
          unfold parseReqTail
          rw [List.head?_cons, if_neg (by simp [hbr])]
          unfold parseReqAfterExtras
          simp only [List.isEmpty_cons, Bool.false_eq_true, if_false,
            List.head?_cons]
          rw [if_neg (by simp [hat])]
          rw [← hvd, hsplit]
          rw [(by simp [hvs] : ([v.data].all validSpec) = true)]
          simp only [if_true]
          have hone : mkJoin ','
              (pySorted (([v.data].map String.mk).dedup)) = v := by
            show mkJoin ',' (pySorted ([String.mk v.data].dedup)) = v
            rw [List.dedup_cons_of_not_mem (by simp), List.dedup_nil]
            show String.mk (List.intercalate [','] [v.data]) = v
            rw [intercalate_singleton, string_mk_data]
          rw [hone, string_mk_data, hxnil]
    · have hxne : r.extras ≠ [] := by
        intro hxx
        rw [hxx] at hxe
        exact hxe rfl
      rw [if_neg hxe]
      have hicall : ∀ c ∈ List.intercalate [','] (r.extras.map String.data),
          decide (c ≠ ']') = true := by
        intro c hc
        rcases mem_intercalate hc with hc | ⟨l, hl, hcl⟩
        · rcases List.mem_singleton.mp hc with rfl
          decide
        · obtain ⟨e, he, hle⟩ := List.mem_map.mp hl
          rw [← hle] at hcl
          have := (identCh_ne ((wfExtra_spec (hexall e he)).2.1 c hcl)).1
          exact decide_eq_true this
      have hbody : ('[' :: (List.intercalate [','] (r.extras.map String.data) ++
          [']'])) ++ (if strTruthy r.version then (r.version.getD "").data
            else []) =
          '[' :: (List.intercalate [','] (r.extras.map String.data) ++
            (']' :: (if strTruthy r.version then (r.version.getD "").data
              else []))) := by
        simp [List.append_assoc]
      rw [hbody]
      unfold parseRequirementToken
      rw [takeWhile_append_head_fail hnall (by decide)]
      rw [dropWhile_append_head_fail hnall (by decide)]
      rw [hedge]
      simp only [if_true]
      unfold parseReqTail
      rw [List.head?_cons, if_pos rfl]
      simp only [List.tail_cons]
      rw [takeWhile_append_head_fail hicall (by decide)]
      rw [dropWhile_append_head_fail hicall (by decide)]
      simp only [List.isEmpty_cons, Bool.false_eq_true, if_false,
        List.tail_cons]
      have hmapne : r.extras.map String.data ≠ [] := by
        intro hmm
        exact hxne (List.map_eq_nil_iff.mp hmm)
      rw [splitCommas_intercalate (r.extras.map String.data) ?_ hmapne]
      · have hval : (r.extras.map String.data).all
            (fun e => e.all identCh && edgeOk e) = true := by
          rw [List.all_eq_true]
          intro x hx
          obtain ⟨e, he, hle⟩ := List.mem_map.mp hx
          obtain ⟨hene, heall, heedge⟩ := wfExtra_spec (hexall e he)
          rw [← hle]
          rw [Bool.and_eq_true]
          constructor
          · rw [List.all_eq_true]
            exact heall
          · exact heedge
        rw [hval]
        simp only [if_true]
        rw [mk_comp_data, hexdd]
        have hinv := @parseAfterExtras_inv n.data r.extras r.version hver
        rw [string_mk_data] at hinv
        exact hinv
      · intro t ht
        obtain ⟨e, he, hle⟩ := List.mem_map.mp ht
        obtain ⟨hene, heall, _⟩ := wfExtra_spec (hexall e he)
        rw [← hle]
        refine ⟨hene, ?_⟩
        intro c hc
        exact (identCh_ne (heall c hc)).2

/-! ## Token safety and command shape -/

theorem wfTool_spec {t : Tool} (h : wfTool t = true) :
    wfReq t.primary = true ∧ (∀ r ∈ t.additional, wfReq r = true) ∧
    distinctKeys t.additional = true ∧
    (∀ p, t.python_version = some p → wfPin p = true) := by
  unfold wfTool at h
  simp only [Bool.and_eq_true, List.all_eq_true] at h
  obtain ⟨⟨⟨h1, h2⟩, h3⟩, h4⟩ := h
  refine ⟨h1, h2, h3, ?_⟩
  intro p hp
  rw [hp] at h4
  simpa using h4

theorem wfPin_spec {p : String} (h : wfPin p = true) :
    p.data ≠ [] ∧ (∀ c ∈ p.data, isPyWs c = false) ∧
    p.data.head? ≠ some '-' := by
  unfold wfPin at h
  simp only [Bool.and_eq_true, decide_eq_true_eq] at h
  obtain ⟨h1, h2⟩ := h
  obtain ⟨h3, h4⟩ := wfUrl_spec h1
  exact ⟨h3, h4, h2⟩

theorem wfReq_ed_cond {r : RequirementSpec} (h : wfReq r = true) :
    (strTruthy r.url && r.editable) = r.editable := by
  cases hed : r.editable with
  | false => rw [Bool.and_false]
  | true =>
    rw [Bool.and_true]
    obtain ⟨n, hn⟩ := wfReq_name h
    cases hu : r.url with
    | none =>
      have := (wfReq_reg_case h hn hu).2.1
      rw [this] at hed
      cases hed
    | some u =>
      have := (wfReq_url_case h hn hu).2.1
      exact strTruthy_some_of_ne (wfUrl_spec this).1

theorem fragment_chars {r : RequirementSpec} (hwf : wfReq r = true) :
    ∀ c ∈ r.fragment.data, isPyWs c = false := by
  obtain ⟨n, hn⟩ := wfReq_name hwf
  intro c hc
  cases hu : r.url with
  | some u =>
    obtain ⟨hwn, hwu, _, _⟩ := wfReq_url_case hwf hn hu
    obtain ⟨hune, huch⟩ := wfUrl_spec hwu
    obtain ⟨_, hnall, _⟩ := wfName_spec hwn
    rw [fragment_url hn hu hune] at hc
    rcases List.mem_append.mp hc with h1 | h1
    · exact identCh_not_pyWs (hnall c h1)
    · rcases List.mem_cons.mp h1 with rfl | h2
      · rfl
      · exact huch c h2
  | none =>
    obtain ⟨hwn, _, hexall, _, hver⟩ := wfReq_reg_case hwf hn hu
    obtain ⟨hnne, hnall, _⟩ := wfName_spec hwn
    have hut : strTruthy r.url = false := by rw [hu]; rfl
    rw [fragment_registry hn hnne hut] at hc
    rcases List.mem_append.mp hc with h1 | h1
    · exact identCh_not_pyWs (hnall c h1)
    · rcases List.mem_append.mp h1 with h2 | h2
      · by_cases hxe : r.extras.isEmpty = true
        · rw [if_pos hxe] at h2; cases h2
        · rw [if_neg hxe] at h2
          rcases List.mem_cons.mp h2 with rfl | h3
          · rfl
          · rcases List.mem_append.mp h3 with h4 | h4
            · rcases mem_intercalate h4 with h5 | ⟨l, hl, hcl⟩
              · rcases List.mem_singleton.mp h5 with rfl
                rfl
              · obtain ⟨e, he, hle⟩ := List.mem_map.mp hl
                rw [← hle] at hcl
                exact identCh_not_pyWs
                  ((wfExtra_spec (hexall e he)).2.1 c hcl)
            · rcases List.mem_singleton.mp h4 with rfl
              rfl
      · cases hvv : r.version with
        | none => rw [hvv] at h2; simp [strTruthy] at h2
        | some v =>
          obtain ⟨hvs, hvu, _⟩ := hver v hvv
          obtain ⟨hne, _⟩ := wfUrl_spec hvu
          obtain ⟨_, hvch, _⟩ := validSpec_spec hvs
          rw [hvv, if_pos (strTruthy_some_of_ne hne)] at h2
          simp only [Option.getD_some] at h2
          exact hvch c h2

theorem fragment_head {r : RequirementSpec} (hwf : wfReq r = true) :
    ∃ c cs, r.fragment.data = c :: cs ∧ c.isAlphanum = true := by
  obtain ⟨n, hn⟩ := wfReq_name hwf
  cases hu : r.url with
  | some u =>
    obtain ⟨hwn, hwu, _, _⟩ := wfReq_url_case hwf hn hu
    obtain ⟨hune, _⟩ := wfUrl_spec hwu
    obtain ⟨_, _, _, c, cs, hcs, hcal⟩ := wfName_spec hwn
    rw [fragment_url hn hu hune, hcs]
    exact ⟨c, cs ++ '@' :: u.data, rfl, hcal⟩
  | none =>
    obtain ⟨hwn, _, _, _, _⟩ := wfReq_reg_case hwf hn hu
    obtain ⟨hnne, _, _, c, cs, hcs, hcal⟩ := wfName_spec hwn
    have hut : strTruthy r.url = false := by rw [hu]; rfl
    rw [fragment_registry hn hnne hut, hcs]
    exact ⟨c, cs ++ _, rfl, hcal⟩

theorem fragment_ne_empty {r : RequirementSpec} (hwf : wfReq r = true) :
    r.fragment.data ≠ [] := by
  obtain ⟨c, cs, hcs, _⟩ := fragment_head hwf
  rw [hcs]
  simp

theorem fragment_head_not_dash {r : RequirementSpec} (hwf : wfReq r = true) :
    ¬ (r.fragment.data.head? = some '-') := by
  obtain ⟨c, cs, hcs, hcal⟩ := fragment_head hwf
  rw [hcs]
  intro h
  rw [List.head?_cons] at h
  have : c = '-' := Option.some.inj h
  subst this
  exact absurd hcal (by decide)

theorem fragment_ne_flag {r : RequirementSpec} (hwf : wfReq r = true)
    (s : String) (hs : s.data.head? = some '-') : ¬ (r.fragment = s) := by
  intro he
  obtain ⟨c, cs, hcs, hcal⟩ := fragment_head hwf
  rw [he] at hcs
  rw [hcs] at hs
  rw [List.head?_cons] at hs
  have : c = '-' := Option.some.inj hs
  subst this
  exact absurd hcal (by decide)

theorem to_install_args_with (r : RequirementSpec) :
    r.to_install_args true =
      [(if strTruthy r.url && r.editable then "--with-editable" else "--with"),
       r.fragment] := by
  unfold RequirementSpec.to_install_args
  by_cases hu : strTruthy r.url = true
  · rw [if_pos hu, hu]
    by_cases he : r.editable = true
    · rw [if_pos he, he]
      rfl
    · have he' : r.editable = false := by
        cases hee : r.editable
        · rfl
        · exact absurd hee he
      rw [he']
      simp
  · have hu' : strTruthy r.url = false := by
      cases huu : strTruthy r.url
      · rfl
      · exact absurd huu hu
    rw [hu']
    simp

theorem to_install_args_primary (r : RequirementSpec) :
    r.to_install_args false =
      r.fragment ::
        (if strTruthy r.url && r.editable then ["--editable"] else []) := by
  unfold RequirementSpec.to_install_args
  by_cases hu : strTruthy r.url = true
  · rw [if_pos hu, hu]
    by_cases he : r.editable = true
    · rw [if_pos he, he]
      rfl
    · have he' : r.editable = false := by
        cases hee : r.editable
        · rfl
        · exact absurd hee he
      rw [he']
      simp
  · have hu' : strTruthy r.url = false := by
      cases huu : strTruthy r.url
      · rfl
      · exact absurd huu hu
    rw [hu']
    simp

theorem to_install_args_tokens {r : RequirementSpec} (hwf : wfReq r = true)
    (aw : Bool) :
    ∀ tok ∈ r.to_install_args aw, tok.data ≠ [] ∧
      ∀ c ∈ tok.data, isPyWs c = false := by
  intro tok htok
  cases aw with
  | true =>
    rw [to_install_args_with] at htok
    rcases List.mem_cons.mp htok with rfl | htok
    · by_cases hc : (strTruthy r.url && r.editable) = true
      · rw [if_pos hc]; exact (by decide)
      · rw [if_neg hc]; exact (by decide)
    · rcases List.mem_singleton.mp htok with rfl
      exact ⟨fragment_ne_empty hwf, fragment_chars hwf⟩
  | false =>
    rw [to_install_args_primary] at htok
    rcases List.mem_cons.mp htok with rfl | htok
    · exact ⟨fragment_ne_empty hwf, fragment_chars hwf⟩
    · by_cases hc : (strTruthy r.url && r.editable) = true
      · rw [if_pos hc] at htok
        rcases List.mem_singleton.mp htok with rfl
        exact (by decide)
      · rw [if_neg hc] at htok
        cases htok

theorem install_command_tokens {t : Tool} (hwf : wfTool t = true) :
    ∀ tok ∈ t.install_command false, tok.data ≠ [] ∧
      ∀ c ∈ tok.data, isPyWs c = false := by
  obtain ⟨hp, hadds, _, hpin⟩ := wfTool_spec hwf
  intro tok htok
  unfold Tool.install_command at htok
  rcases List.mem_append.mp htok with h1 | h1
  · rcases List.mem_append.mp h1 with h2 | h2
    · rcases List.mem_append.mp h2 with h3 | h3
      · exact to_install_args_tokens hp false tok h3
      · obtain ⟨l, hl, htl⟩ := List.mem_flatten.mp h3
        obtain ⟨r, hr, hrl⟩ := List.mem_map.mp hl
        rw [← hrl] at htl
        exact to_install_args_tokens (hadds r hr) true tok htl
    · cases hpy : t.python_version with
      | none => rw [hpy] at h2; simp [strTruthy] at h2
      | some p =>
        obtain ⟨hpne, hpch, _⟩ := wfPin_spec (hpin p hpy)
        rw [hpy, if_pos (strTruthy_some_of_ne hpne)] at h2
        rcases List.mem_cons.mp h2 with rfl | h3
        · exact (by decide)
        · rcases List.mem_singleton.mp h3 with rfl
          exact ⟨hpne, hpch⟩
  · simp at h1

/-! ## Flag parsing inversion -/

theorem parseFlags_nil (acc : LineFlags) : parseFlags [] acc = some acc := rfl

theorem parseFlags_python_step (v : String) (rest : List String)
    (acc : LineFlags) (hv : ¬ (v.data.head? = some '-')) :
    parseFlags ("--python" :: v :: rest) acc =
      parseFlags rest { acc with python := some v } := by
  show (if v.data.head? = some '-' then none
        else parseFlags rest { acc with python := some v }) = _
  rw [if_neg hv]

theorem parseFlags_editable_step (rest : List String) (acc : LineFlags) :
    parseFlags ("--editable" :: rest) acc =
      parseFlags rest { acc with editable := true } := by
  conv_lhs => rw [parseFlags.eq_def]
  exact rfl

theorem parseFlags_with_step (v : String) (rest : List String)
    (acc : LineFlags) (hv : ¬ (v.data.head? = some '-')) :
    parseFlags ("--with" :: v :: rest) acc =
      parseFlags rest { acc with additional := acc.additional ++ [v] } := by
  show (if v.data.head? = some '-' then none
        else parseFlags rest { acc with additional := acc.additional ++ [v] }) = _
  rw [if_neg hv]

theorem parseFlags_withed_step (v : String) (rest : List String)
    (acc : LineFlags) (hv : ¬ (v.data.head? = some '-')) :
    parseFlags ("--with-editable" :: v :: rest) acc =
      parseFlags rest
        { acc with additional_editable := acc.additional_editable ++ [v] } := by
  show (if v.data.head? = some '-' then none
        else parseFlags rest
          { acc with additional_editable := acc.additional_editable ++ [v] }) = _
  rw [if_neg hv]

theorem parseFlags_overrides :
    ∀ (adds : List RequirementSpec), (∀ r ∈ adds, wfReq r = true) →
    ∀ (rest : List String) (acc : LineFlags),
      parseFlags ((adds.map (fun r => r.to_install_args true)).flatten ++ rest)
        acc =
      parseFlags rest
        { acc with
          additional := acc.additional ++ adds.filterMap (fun r =>
            if strTruthy r.url && r.editable then none else some r.fragment),
          additional_editable := acc.additional_editable ++
            adds.filterMap (fun r =>
              if strTruthy r.url && r.editable then some r.fragment
              else none) } := by
  intro adds
  induction adds with
  | nil =>
    intro _ rest acc
    simp only [List.map_nil, List.flatten_nil, List.nil_append,
      List.filterMap_nil, List.append_nil]
  | cons a adds ih =>
    intro h rest acc
    have hwa := h a (List.mem_cons_self _ _)
    have hrest := fun r hr => h r (List.mem_cons_of_mem _ hr)
    rw [List.map_cons, List.flatten_cons, to_install_args_with,
      List.append_assoc]
    by_cases hc : (strTruthy a.url && a.editable) = true
    · rw [if_pos hc]
      show parseFlags ("--with-editable" :: a.fragment ::
        ((adds.map (fun r => r.to_install_args true)).flatten ++ rest)) acc = _
      rw [parseFlags_withed_step _ _ _ (fragment_head_not_dash hwa)]
      rw [ih hrest rest _]
      congr 1
      simp only [List.filterMap_cons]
      rw [hc]
      simp [List.append_assoc]
    · rw [if_neg hc]
      show parseFlags ("--with" :: a.fragment ::
        ((adds.map (fun r => r.to_install_args true)).flatten ++ rest)) acc = _
      rw [parseFlags_with_step _ _ _ (fragment_head_not_dash hwa)]
      rw [ih hrest rest _]
      congr 1
      have hc' : (strTruthy a.url && a.editable) = false := by
        cases hcc : (strTruthy a.url && a.editable)
        · rfl
        · exact absurd hcc hc
      simp only [List.filterMap_cons]
      rw [hc']
      simp [List.append_assoc]

theorem parseFlags_pyPart (py : Option String)
    (hpy : ∀ p, py = some p → wfPin p = true) (acc : LineFlags)
    (hacc : acc.python = none) :
    parseFlags
      (if strTruthy py then ["--python", py.getD ""] else []) acc =
      some { acc with python := py } := by
  cases py with
  | none =>
    show parseFlags [] acc = _
    rw [parseFlags_nil]
    have : acc = { acc with python := none } := by rw [← hacc]
    rw [← this]
  | some p =>
    obtain ⟨hpne, _, hdash⟩ := wfPin_spec (hpy p rfl)
    rw [if_pos (strTruthy_some_of_ne hpne)]
    simp only [Option.getD_some]
    rw [parseFlags_python_step p [] acc hdash, parseFlags_nil]

/-! ## Override list round-trip -/

theorem mapM_ok_of_forall {α β : Type} (f : α → Except Err β) (g : α → β) :
    ∀ l : List α, (∀ x ∈ l, f x = .ok (g x)) → l.mapM f = .ok (l.map g) := by
  intro l
  induction l with
  | nil => intro _; rfl
  | cons a as ih =>
    intro h
    rw [List.mapM_cons, h a (List.mem_cons_self _ _),
      ih (fun x hx => h x (List.mem_cons_of_mem _ hx))]
    rfl

theorem parseAdditional_ok {r : RequirementSpec} {n : String}
    (hwf : wfReq r = true) (hn : r.name = some n) (ed : Bool)
    (hed : r.editable = ed) : parseAdditional ed r.fragment = .ok r := by
  unfold parseAdditional
  rw [parse_fragment hwf hn]
  show Except.ok
    ({ name := some n, version := r.version, extras := r.extras,
       url := r.url, editable := ed } : RequirementSpec) = Except.ok r
  rw [← hn, ← hed]

theorem parse_withs :
    ∀ (adds : List RequirementSpec), (∀ r ∈ adds, wfReq r = true) →
      (adds.filterMap (fun r =>
        if strTruthy r.url && r.editable then none
        else some r.fragment)).mapM (parseAdditional false) =
      .ok (adds.filter (fun r => !(strTruthy r.url && r.editable))) := by
  intro adds
  induction adds with
  | nil => intro _; rfl
  | cons a adds ih =>
    intro h
    have hwa := h a (List.mem_cons_self _ _)
    have hrest := fun r hr => h r (List.mem_cons_of_mem _ hr)
    by_cases hc : (strTruthy a.url && a.editable) = true
    · simp only [List.filterMap_cons, List.filter_cons]
      rw [hc]
      simp only [Bool.not_true, Bool.false_eq_true, if_false, if_pos rfl]
      exact ih hrest
    · have hc' : (strTruthy a.url && a.editable) = false := by
        cases hcc : (strTruthy a.url && a.editable)
        · rfl
        · exact absurd hcc hc
      simp only [List.filterMap_cons, List.filter_cons]
      rw [hc']
      simp only [Bool.not_false, Bool.false_eq_true, if_false, if_pos rfl]
      have hed : a.editable = false := by
        rw [wfReq_ed_cond hwa] at hc'
        exact hc'
      obtain ⟨n, hn⟩ := wfReq_name hwa
      rw [List.mapM_cons, parseAdditional_ok hwa hn false hed, ih hrest]
      rfl

theorem parse_withEds :
    ∀ (adds : List RequirementSpec), (∀ r ∈ adds, wfReq r = true) →
      (adds.filterMap (fun r =>
        if strTruthy r.url && r.editable then some r.fragment
        else none)).mapM (parseAdditional true) =
      .ok (adds.filter (fun r => strTruthy r.url && r.editable)) := by
  intro adds
  induction adds with
  | nil => intro _; rfl
  | cons a adds ih =>
    intro h
    have hwa := h a (List.mem_cons_self _ _)
    have hrest := fun r hr => h r (List.mem_cons_of_mem _ hr)
    by_cases hc : (strTruthy a.url && a.editable) = true
    · simp only [List.filterMap_cons, List.filter_cons]
      rw [hc]
      simp only [if_pos rfl, if_true]
      have hed : a.editable = true := by
        rw [wfReq_ed_cond hwa] at hc
        exact hc
      obtain ⟨n, hn⟩ := wfReq_name hwa
      rw [List.mapM_cons, parseAdditional_ok hwa hn true hed, ih hrest]
      rfl
    · have hc' : (strTruthy a.url && a.editable) = false := by
        cases hcc : (strTruthy a.url && a.editable)
        · rfl
        · exact absurd hcc hc
      simp only [List.filterMap_cons, List.filter_cons]
      rw [hc']
      simp only [Bool.false_eq_true, if_false]
      exact ih hrest

/-! ## Line round-trip: `decodeLine` after `encodeLine` -/

theorem distinctKeys_pairwise :
    ∀ {l : List RequirementSpec}, distinctKeys l = true →
      List.Pairwise (fun x y => sortKey x ≠ sortKey y) l := by
  intro l
  induction l with
  | nil => intro _; exact List.Pairwise.nil
  | cons a rest ih =>
    intro h
    unfold distinctKeys at h
    simp only [Bool.and_eq_true, List.all_eq_true] at h
    obtain ⟨h1, h2⟩ := h
    refine List.Pairwise.cons ?_ (ih h2)
    intro b hb
    have hh := h1 b hb
    simpa using hh

theorem filter_split_perm (l : List RequirementSpec) :
    (l.filter (fun r => !(strTruthy r.url && r.editable)) ++
      l.filter (fun r => strTruthy r.url && r.editable)).Perm l := by
  have h1 := List.filter_append_perm
    (fun r => !(strTruthy r.url && r.editable)) l
  have h2 : l.filter (fun r => !!(strTruthy r.url && r.editable)) =
      l.filter (fun r => strTruthy r.url && r.editable) := by
    simp only [Bool.not_not]
  rw [h2] at h1
  exact h1

theorem shlex_encodeLine {t : Tool} (hwf : wfTool t = true) :
    shlexSplit (encodeLine t) = (t.install_command false).map String.data := by
  show shlexSplit
      (List.intercalate [' '] ((t.install_command false).map String.data)) = _
  apply shlexSplit_intercalate
  intro td htd
  obtain ⟨tok, htok, hdt⟩ := List.mem_map.mp htd
  obtain ⟨h1, h2⟩ := install_command_tokens hwf tok htok
  subst hdt
  exact ⟨h1, fun c hc => not_shlexWs_of_not_pyWs (h2 c hc)⟩

theorem install_command_shape {t : Tool} :
    t.install_command false = t.primary.fragment ::
      ((if strTruthy t.primary.url && t.primary.editable then ["--editable"]
        else []) ++
       ((t.additional.map (fun r => r.to_install_args true)).flatten ++
        (if strTruthy t.python_version then
          ["--python", t.python_version.getD ""] else []))) := by
  unfold Tool.install_command
  rw [to_install_args_primary]
  simp [List.append_assoc]

theorem decodeLine_encodeLine {t : Tool} (hwf : wfTool t = true) :
    decodeLine (encodeLine t) =
      .ok { primary := t.primary,
            additional :=
              t.additional.filter
                  (fun r => !(strTruthy r.url && r.editable)) ++
                t.additional.filter (fun r => strTruthy r.url && r.editable),
            python_version := t.python_version } := by
  obtain ⟨hp, hadds, hdk, hpin⟩ := wfTool_spec hwf
  obtain ⟨n, hn⟩ := wfReq_name hp
  unfold decodeLine
  rw [shlex_encodeLine hwf, install_command_shape]
  simp only [List.map_cons]
  rw [parse_fragment hp hn, mk_comp_data]
  have hq : (strTruthy t.primary.url && t.primary.editable) =
      t.primary.editable := wfReq_ed_cond hp
  rw [hq]
  cases hed : t.primary.editable with
  | true =>
    rw [if_pos rfl]
    simp only [List.singleton_append]
    rw [parseFlags_editable_step]
    rw [parseFlags_overrides t.additional hadds]
    rw [parseFlags_pyPart t.python_version hpin _ rfl]
    simp only [List.nil_append]
    unfold parseAdditionals
    rw [parse_withs t.additional hadds, parse_withEds t.additional hadds]
    rw [← hn, ← hed]
  | false =>
    rw [if_neg (by simp)]
    simp only [List.nil_append]
    rw [parseFlags_overrides t.additional hadds]
    rw [parseFlags_pyPart t.python_version hpin _ rfl]
    simp only [List.nil_append]
    unfold parseAdditionals
    rw [parse_withs t.additional hadds, parse_withEds t.additional hadds]
    rw [← hn, ← hed]

theorem decoded_toolEq {t : Tool} (hwf : wfTool t = true) :
    toolEq
      { primary := t.primary,
        additional :=
          t.additional.filter (fun r => !(strTruthy r.url && r.editable)) ++
            t.additional.filter (fun r => strTruthy r.url && r.editable),
        python_version := t.python_version } t = true := by
  obtain ⟨_, _, hdk, _⟩ := wfTool_spec hwf
  refine toolEq_of_additional_perm ?_ (filter_split_perm t.additional) ?_ rfl
  · exact reqEq_refl _
  exact ((filter_split_perm t.additional).pairwise_iff
    (fun h he => h he.symm)).mpr (distinctKeys_pairwise hdk)

theorem encodeLine_head {t : Tool} (hwf : wfTool t = true) :
    ∃ c, (encodeLine t).head? = some c ∧ c.isAlphanum = true := by
  obtain ⟨hp, _, _, _⟩ := wfTool_spec hwf
  obtain ⟨c, cs, hcs, hcal⟩ := fragment_head hp
  refine ⟨c, ?_, hcal⟩
  show (List.intercalate [' ']
    ((t.install_command false).map String.data)).head? = some c
  rw [install_command_shape, List.map_cons]
  rw [@intercalate_head?_eq [' '] t.primary.fragment.data _
    (fragment_ne_empty hp)]
  rw [hcs]
  rfl

theorem encodeLine_ne_nil {t : Tool} (hwf : wfTool t = true) :
    encodeLine t ≠ [] := by
  obtain ⟨c, hc, _⟩ := encodeLine_head hwf
  intro h
  rw [h] at hc
  cases hc

theorem encodeLine_chars {t : Tool} (hwf : wfTool t = true) :
    ∀ c ∈ encodeLine t, c = ' ' ∨ isPyWs c = false := by
  intro c hc
  have hc' : c ∈ List.intercalate [' ']
      ((t.install_command false).map String.data) := hc
  rcases mem_intercalate hc' with h1 | ⟨l, hl, hcl⟩
  · rcases List.mem_singleton.mp h1 with rfl
    exact Or.inl rfl
  · obtain ⟨tok, htok, hdt⟩ := List.mem_map.mp hl
    obtain ⟨_, h2⟩ := install_command_tokens hwf tok htok
    rw [← hdt] at hcl
    exact Or.inr (h2 c hcl)

theorem encodeLine_no_newline {t : Tool} (hwf : wfTool t = true) :
    ∀ c ∈ encodeLine t, c ≠ '\n' := by
  intro c hc he
  rcases encodeLine_chars hwf c hc with h | h
  · rw [he] at h; cases h
  · rw [he] at h; cases h

theorem encodeLine_getLast {t : Tool} (hwf : wfTool t = true) :
    ∀ c, (encodeLine t).getLast? = some c → isPyWs c = false := by
  obtain ⟨hp, _, _, _⟩ := wfTool_spec hwf
  have hmem : t.primary.fragment.data ∈
      (t.install_command false).map String.data := by
    rw [install_command_shape, List.map_cons]
    exact List.mem_cons_self _ _
  have hne : (t.install_command false).map String.data ≠ [] := by
    rw [install_command_shape, List.map_cons]
    intro h
    cases h
  have hall : ∀ x ∈ (t.install_command false).map String.data, x ≠ [] := by
    intro x hx
    obtain ⟨tok, htok, hdt⟩ := List.mem_map.mp hx
    obtain ⟨h1, _⟩ := install_command_tokens hwf tok htok
    rw [← hdt]
    exact h1
  obtain ⟨u, hu, hlast⟩ := @intercalate_getLast?_mem [' '] (by decide)
    ((t.install_command false).map String.data) t.primary.fragment.data
    hmem hne hall
  intro c hc
  have hc' : ((List.intercalate [' ']
    ((t.install_command false).map String.data)) : List Char).getLast? =
      some c := hc
  rw [hlast] at hc'
  have hcm : c ∈ u := getLast?_mem' hc'
  obtain ⟨tok, htok, hdt⟩ := List.mem_map.mp hu
  obtain ⟨_, h2⟩ := install_command_tokens hwf tok htok
  rw [← hdt] at hcm
  exact h2 c hcm

theorem pyStrip_encodeLine {t : Tool} (hwf : wfTool t = true) :
    pyStrip (encodeLine t) = encodeLine t := by
  apply pyStrip_eq_self
  · intro c hc
    obtain ⟨c', hc', hal⟩ := encodeLine_head hwf
    rw [hc'] at hc
    rcases Option.some.inj hc with rfl
    exact identCh_not_pyWs (identCh_of_alnum hal)
  · exact encodeLine_getLast hwf

theorem keepLine_encodeLine {t : Tool} (hwf : wfTool t = true) :
    keepLine (encodeLine t) = true := by
  obtain ⟨c, hc, hal⟩ := encodeLine_head hwf
  unfold keepLine
  cases hl : encodeLine t with
  | nil => exact absurd hl (encodeLine_ne_nil hwf)
  | cons x xs =>
    rw [hl] at hc
    rw [List.head?_cons] at hc
    have hx : x = c := Option.some.inj hc
    subst hx
    simp only [List.isEmpty_cons, Bool.not_false, Bool.true_and,
      List.head?_cons]
    have hnh : ¬ (x = '#') := by
      intro h
      rw [h] at hal
      exact absurd hal (by decide)
    simp [hnh]

/-! ## File round-trip: `collect_tool_metadata` after `write_uvfile` -/

theorem decodeLines_encode :
    ∀ ts : List Tool, (∀ t ∈ ts, wfTool t = true) →
      ∃ ts', decodeLines (ts.map encodeLine) = .ok ts' ∧
        List.Forall₂ (fun a b => toolEq a b = true) ts' ts := by
  intro ts
  induction ts with
  | nil => intro _; exact ⟨[], rfl, List.Forall₂.nil⟩
  | cons t ts ih =>
    intro h
    have hwt := h t (List.mem_cons_self _ _)
    obtain ⟨ts', hts', hf⟩ := ih (fun x hx => h x (List.mem_cons_of_mem _ hx))
    refine ⟨_ :: ts', ?_, List.Forall₂.cons (decoded_toolEq hwt) hf⟩
    show decodeLines (encodeLine t :: ts.map encodeLine) = _
    unfold decodeLines
    rw [decodeLine_encodeLine hwt, hts']

theorem uvfile_lines (ts : List Tool) (h : ∀ t ∈ ts, wfTool t = true) :
    ((pySplitlines (uvfileText ts)).map pyStrip).filter keepLine =
      ts.map encodeLine := by
  unfold uvfileText
  rw [pySplitlines_file _ _ (by decide)]
  have hbody : pySplitlines.go []
      (List.intercalate ['\n'] (ts.map encodeLine)) = ts.map encodeLine := by
    have hb := pySplitlines_body (ts.map encodeLine) ?_
    · exact hb
    · intro l hl
      obtain ⟨t, ht, hdt⟩ := List.mem_map.mp hl
      rw [← hdt]
      exact ⟨encodeLine_ne_nil (h t ht), encodeLine_no_newline (h t ht)⟩
  rw [hbody]
  rw [List.map_cons, List.map_cons, List.map_map]
  have hmap : ts.map (pyStrip ∘ encodeLine) = ts.map encodeLine := by
    apply List.map_congr_left
    intro t ht
    exact pyStrip_encodeLine (h t ht)
  rw [hmap]
  rw [List.filter_cons, List.filter_cons]
  rw [(by decide : keepLine (pyStrip uvfileHeader.data) = false)]
  rw [(by decide : keepLine (pyStrip []) = false)]
  simp only [Bool.false_eq_true, if_false]
  apply List.filter_eq_self.mpr
  intro l hl
  obtain ⟨t, ht, hdt⟩ := List.mem_map.mp hl
  rw [← hdt]
  exact keepLine_encodeLine (h t ht)

/-! ## Claim C4 -/

/-- C4 (counterexample): a collection with pairwise-distinct primary
names covering all four source kinds (registry, version-control url,
directory, editable path) and override sets of sizes 0, 1, 2 and 3, in
which one registry tool declares the duplicated extras list
`["x", "x"]`.  Encoding renders the line `a[x,x]`; decoding passes
through `packaging`'s extras *set*, so the decoded tool carries extras
`["x"]`, and the equivalence check — which compares extras as sorted
lists, with multiplicity — rejects the pair.  The round-trip therefore
does not yield an equivalent collection, refuting the claim as stated
(decode ∘ encode up to equivalence for every distinct-name collection). -/
theorem c4_counterexample :
    (([⟨⟨some "a", none, ["x", "x"], none, false⟩, [], none⟩,
       ⟨⟨some "b", none, [], some "git+h", false⟩,
        [⟨some "c", some "==1", [], none, false⟩], some "3"⟩,
       ⟨⟨some "d", none, [], some "/p", false⟩,
        [⟨some "e", none, [], none, false⟩,
         ⟨some "f", none, [], none, false⟩], none⟩,
       ⟨⟨some "g", none, [], some "/q", true⟩,
        [⟨some "h", none, [], none, false⟩,
         ⟨some "i", none, [], none, false⟩,
         ⟨some "j", none, [], some "/r", true⟩], none⟩] : List Tool).map
        (fun t => t.primary.name)).dedup =
      [some "a", some "b", some "d", some "g"] ∧
    collect_tool_metadata (some (uvfileText
      [⟨⟨some "a", none, ["x", "x"], none, false⟩, [], none⟩,
       ⟨⟨some "b", none, [], some "git+h", false⟩,
        [⟨some "c", some "==1", [], none, false⟩], some "3"⟩,
       ⟨⟨some "d", none, [], some "/p", false⟩,
        [⟨some "e", none, [], none, false⟩,
         ⟨some "f", none, [], none, false⟩], none⟩,
       ⟨⟨some "g", none, [], some "/q", true⟩,
        [⟨some "h", none, [], none, false⟩,
         ⟨some "i", none, [], none, false⟩,
         ⟨some "j", none, [], some "/r", true⟩], none⟩])) =
      .ok [⟨⟨some "a", none, ["x"], none, false⟩, [], none⟩,
       ⟨⟨some "b", none, [], some "git+h", false⟩,
        [⟨some "c", some "==1", [], none, false⟩], some "3"⟩,
       ⟨⟨some "d", none, [], some "/p", false⟩,
        [⟨some "e", none, [], none, false⟩,
         ⟨some "f", none, [], none, false⟩], none⟩,
       ⟨⟨some "g", none, [], some "/q", true⟩,
        [⟨some "h", none, [], none, false⟩,
         ⟨some "i", none, [], none, false⟩,
         ⟨some "j", none, [], some "/r", true⟩], none⟩] ∧
    toolEq ⟨⟨some "a", none, ["x"], none, false⟩, [], none⟩
      ⟨⟨some "a", none, ["x", "x"], none, false⟩, [], none⟩ = false :=
  ⟨by decide, rfl, by decide⟩

/-- C4 (amended): for every *well-formed* collection of tools — each
name and extra an identifier that `packaging`'s `IDENTIFIER` token
accepts in full (identifier characters, alphanumeric first character,
word-character last character); extras **without duplicates**; each url
and interpreter pin non-empty, printable, free of quotes and
backslashes, and pins additionally not flag-shaped (no leading `-`);
each version constraint, when present, a single valid PEP 440 specifier
whose text is printable, quote-free and comma-free; url sources carrying
no version constraint or extras; registry specs non-editable; each
override list with pairwise-distinct `(name, version)` sort keys; and
pairwise-distinct primary names — decoding the manifest text produced
by encoding the collection succeeds and yields a collection elementwise
equivalent, per the program's own `Tool.__eq__`, to the original.  This
covers all four source kinds (registry / vcs url / directory / editable
path, the latter three all carried by `url`+`editable`) and arbitrary
override-set sizes. -/
theorem c4_roundtrip_equivalence (ts : List Tool) (h : wfTools ts = true) :
    ∃ ts', collect_tool_metadata (some (uvfileText ts)) = .ok ts' ∧
      List.Forall₂ (fun a b => toolEq a b = true) ts' ts := by
  have hall : ∀ t ∈ ts, wfTool t = true := by
    unfold wfTools at h
    simp only [Bool.and_eq_true, List.all_eq_true] at h
    exact h.1
  have hcol : collect_tool_metadata (some (uvfileText ts)) =
      decodeLines (ts.map encodeLine) := by
    show decodeLines
      (((pySplitlines (uvfileText ts)).map pyStrip).filter keepLine) = _
    rw [uvfile_lines ts hall]
  rw [hcol]
  exact decodeLines_encode ts hall

/-- C4 (witness): the amended round-trip theorem applied to a concrete
well-formed four-tool collection covering all four source kinds and
override sets of sizes 0, 1, 2 and 3. -/
theorem c4_witness :
    wfTools [⟨⟨some "a", none, ["x"], none, false⟩, [], none⟩,
       ⟨⟨some "b", none, [], some "git+h", false⟩,
        [⟨some "c", some "==1", [], none, false⟩], some "3"⟩,
       ⟨⟨some "d", none, [], some "/p", false⟩,
        [⟨some "e", none, [], none, false⟩,
         ⟨some "f", none, [], none, false⟩], none⟩,
       ⟨⟨some "g", none, [], some "/q", true⟩,
        [⟨some "h", none, [], none, false⟩,
         ⟨some "i", none, [], none, false⟩,
         ⟨some "j", none, [], some "/r", true⟩], none⟩] = true ∧
    (∃ ts', collect_tool_metadata (some (uvfileText
      [⟨⟨some "a", none, ["x"], none, false⟩, [], none⟩,
       ⟨⟨some "b", none, [], some "git+h", false⟩,
        [⟨some "c", some "==1", [], none, false⟩], some "3"⟩,
       ⟨⟨some "d", none, [], some "/p", false⟩,
        [⟨some "e", none, [], none, false⟩,
         ⟨some "f", none, [], none, false⟩], none⟩,
       ⟨⟨some "g", none, [], some "/q", true⟩,
        [⟨some "h", none, [], none, false⟩,
         ⟨some "i", none, [], none, false⟩,
         ⟨some "j", none, [], some "/r", true⟩], none⟩])) = .ok ts' ∧
      List.Forall₂ (fun a b => toolEq a b = true) ts'
      [⟨⟨some "a", none, ["x"], none, false⟩, [], none⟩,
       ⟨⟨some "b", none, [], some "git+h", false⟩,
        [⟨some "c", some "==1", [], none, false⟩], some "3"⟩,
       ⟨⟨some "d", none, [], some "/p", false⟩,
        [⟨some "e", none, [], none, false⟩,
         ⟨some "f", none, [], none, false⟩], none⟩,
       ⟨⟨some "g", none, [], some "/q", true⟩,
        [⟨some "h", none, [], none, false⟩,
         ⟨some "i", none, [], none, false⟩,
         ⟨some "j", none, [], some "/r", true⟩], none⟩]) :=
  ⟨by decide, c4_roundtrip_equivalence _ (by decide)⟩
